import Mathlib

/-!
Verification development for the ant-colony simulation (`ants.py`).

The program is a vectorized, batched state machine over a population of
agents ("ants") in a grid maze, coupled to a shared pheromone field.
We shallowly embed the `Colony` class: columnar agent state becomes a
record of functions indexed by `Fin n`, the numpy masked writes become
pointwise function updates, and the retry `while` loop of `explore`
becomes a fuel-indexed recursion together with a completion predicate.

Machine integers: seeds are `int64` but always reduced mod 2147483647,
so we model them as `Nat`; ages are `int64` and may in principle go
negative (numpy then wraps the history index), so we model ages as `Int`
and the numpy negative-index wrap explicitly (`npi`); grid coordinates
are `int16` but stay tiny, so plain `Int` is faithful; pheromone values
are `float64`, used here only through `max`, comparison with zero, and
exact small arithmetic, so we model them as `ℚ`.

The modules `direction.py`, `maze.py` and `pheromone.py` of this
repository are not available, only their call sites in `ants.py`;
definitions taken from the spec instead of source are marked
`Modelled from the spec:` in their doc comment.
-/

namespace Ants

/-- The recurrence `seed = (16807*seed) mod 2147483647`, the per-agent PRNG advance used at
`ants.py` lines 33, 89 and 135. -/
def seedNext (s : Nat) : Nat := (16807 * s) % 2147483647

/-- Iterating the PRNG advance `k` times. -/
def seedIter : Nat → Nat → Nat
  | 0, s => s
  | k + 1, s => seedNext (seedIter k s)

/-- Modelled from the spec: `direction.py` is not in `src/`.  The spec lists
directions north, east, south, west and none; `ants.py` draws `dir = seed % 4`,
matches it against the four constants, and treats `3 - direction` as the exact
reverse, so the four move constants are `{0, 1, 2, 3}` with opposite pairs
summing to 3 (north/south and east/west), and "none" is a value no draw can
equal (so `3 - DIR_NONE = 4` never matches a draw). -/
def DIR_NONE : Int := -1

/-- Modelled from the spec (see `DIR_NONE`). -/
def DIR_NORTH : Int := 0

/-- Modelled from the spec (see `DIR_NONE`). -/
def DIR_EAST : Int := 1

/-- Modelled from the spec (see `DIR_NONE`). -/
def DIR_WEST : Int := 2

/-- Modelled from the spec (see `DIR_NONE`). -/
def DIR_SOUTH : Int := 3

/-- Modelled from the spec: `maze.py` is not in `src/`.  Each cell stores a
4-bit mask of open directions; `ants.py` tests `bitwise_and(mask, maze.NORTH) > 0`
etc., so the four constants are distinct bits. -/
def NORTH : Nat := 1

/-- Modelled from the spec (see `NORTH`). -/
def EAST : Nat := 2

/-- Modelled from the spec (see `NORTH`). -/
def SOUTH : Nat := 4

/-- Modelled from the spec (see `NORTH`). -/
def WEST : Nat := 8

/-- A grid position `(row, col)`. -/
abbrev Pos := Int × Int

/-- Modelled from the spec: the maze collaborator, consumed read-only; a
rectangular grid of 4-bit open-direction masks. -/
structure Maze where
  rows : Nat
  cols : Nat
  mask : Int → Int → Nat

/-- Test `bitwise_and(maze[pos], NORTH) > 0` (`ants.py` line 93). -/
def hasNorthExit (mz : Maze) (p : Pos) : Bool := decide (Nat.land (mz.mask p.1 p.2) NORTH ≠ 0)

/-- Test `bitwise_and(maze[pos], EAST) > 0` (`ants.py` line 94). -/
def hasEastExit (mz : Maze) (p : Pos) : Bool := decide (Nat.land (mz.mask p.1 p.2) EAST ≠ 0)

/-- Test `bitwise_and(maze[pos], SOUTH) > 0` (`ants.py` line 95). -/
def hasSouthExit (mz : Maze) (p : Pos) : Bool := decide (Nat.land (mz.mask p.1 p.2) SOUTH ≠ 0)

/-- Test `bitwise_and(maze[pos], WEST) > 0` (`ants.py` line 96). -/
def hasWestExit (mz : Maze) (p : Pos) : Bool := decide (Nat.land (mz.mask p.1 p.2) WEST ≠ 0)

/-- A pheromone field with ghost border: maze cell `(i, j)` lives at field
entry `(i+1, j+1)`. -/
abbrev Phero := Int → Int → ℚ

/-- The pheromone object: `pheromones.pheromon` in `ants.py`. -/
structure Pheromon where
  pheromon : Phero

/-- Numpy index semantics on the history axis of length `L+1`: a negative
index wraps by adding the axis length (`historic_path[ant, -1]` reads the
last row).  Non-negative indices are used as-is. -/
def npi (L : Nat) (i : Int) : Int := if i < 0 then i + (L + 1) else i

/-- The columnar agent batch (`Colony.__init__`, `ants.py` lines 26-49):
`n` agents, history axis of length `L+1` where `L` is the constructor's
`max_life` argument (the per-agent `max_life` field is derated from it). -/
structure Colony (n L : Nat) where
  seeds : Fin n → Nat
  is_loaded : Fin n → Bool
  max_life : Fin n → Nat
  age : Fin n → Int
  historic_path : Fin n → Int → Pos
  directions : Fin n → Int

/-- Reading `historic_path[a, i, :]` with numpy index semantics. -/
def histAt {n L : Nat} (c : Colony n L) (a : Fin n) (i : Int) : Pos :=
  c.historic_path a (npi L i)

/-- Line 62: the age of every loaded ant is decremented. -/
def rtnAge1 {n L : Nat} (c : Colony n L) (loaded : Fin n → Bool) : Fin n → Int :=
  fun a => if loaded a then c.age a - 1 else c.age a

/-- Lines 64-66: the loaded ants whose position at the decremented age is
the nest. -/
def rtnInNest {n L : Nat} (c : Colony n L) (loaded : Fin n → Bool)
    (pos_nest : Pos) : Fin n → Bool := fun a =>
  loaded a &&
    decide (histAt ({ c with age := rtnAge1 c loaded } : Colony n L) a
      (rtnAge1 c loaded a) = pos_nest)

/-- The method `Colony.return_to_nest` (`ants.py` lines 51-72): decrement the age of
every loaded ant, unload (and reset age to 0 for) those whose position at the
new age is the nest, and add their number to `food_counter`.  Returns the
updated colony and the returned counter. -/
def return_to_nest {n L : Nat} (c : Colony n L) (loaded : Fin n → Bool)
    (pos_nest : Pos) (food_counter : Int) : Colony n L × Int :=
  let delivered : Nat :=
    (Finset.univ.filter (fun a => rtnInNest c loaded pos_nest a = true)).card
  ({ c with
      is_loaded := fun a => if rtnInNest c loaded pos_nest a then false else c.is_loaded a,
      age := fun a => if rtnInNest c loaded pos_nest a then 0 else rtnAge1 c loaded a },
    food_counter + delivered)

/-- Module-level constant `exploration_coefs = 0.` (`ants.py` line 14). -/
def exploration_coefs : ℚ := 0

/-- Gated north-neighbor scent (`ants.py` lines 99-101): field entry
`(i, j+1)` of the ghost-bordered array, zeroed when the north exit is shut. -/
def northPher (mz : Maze) (ph : Pheromon) (p : Pos) : ℚ :=
  if hasNorthExit mz p then ph.pheromon p.1 (p.2 + 1) else 0

/-- Gated east-neighbor scent (`ants.py` lines 103-106): entry `(i+1, j+2)`. -/
def eastPher (mz : Maze) (ph : Pheromon) (p : Pos) : ℚ :=
  if hasEastExit mz p then ph.pheromon (p.1 + 1) (p.2 + 2) else 0

/-- Gated south-neighbor scent (`ants.py` lines 108-111): entry `(i+2, j+1)`. -/
def southPher (mz : Maze) (ph : Pheromon) (p : Pos) : ℚ :=
  if hasSouthExit mz p then ph.pheromon (p.1 + 2) (p.2 + 1) else 0

/-- Gated west-neighbor scent (`ants.py` lines 113-115): entry `(i+1, j)`. -/
def westPher (mz : Maze) (ph : Pheromon) (p : Pos) : ℚ :=
  if hasWestExit mz p then ph.pheromon (p.1 + 1) p.2 else 0

/-- The array `max_pheromones` (`ants.py` lines 117-119). -/
def maxPher (mz : Maze) (ph : Pheromon) (p : Pos) : ℚ :=
  max (max (max (northPher mz ph p) (eastPher mz ph p)) (southPher mz ph p)) (westPher mz ph p)

/-- The array `nb_exits` (`ants.py` lines 130-131): the number of open exits of a cell. -/
def nbExits (mz : Maze) (p : Pos) : Nat :=
  (if hasNorthExit mz p then 1 else 0) + (if hasEastExit mz p then 1 else 0) +
    (if hasSouthExit mz p then 1 else 0) + (if hasWestExit mz p then 1 else 0)

/-- The candidate position built from a drawn direction (`ants.py` lines
139-147): each coordinate delta is gated by the corresponding exit, so a draw
into a wall leaves the position unchanged. -/
def newPosOf (dir : Int) (old : Pos) (hn he hw hs : Bool) : Pos :=
  ( old.1 - (if dir = DIR_NORTH ∧ hn then 1 else 0)
      + (if dir = DIR_SOUTH ∧ hs then 1 else 0),
    old.2 - (if dir = DIR_WEST ∧ hw then 1 else 0)
      + (if dir = DIR_EAST ∧ he then 1 else 0) )

/-- Static per-agent data of the retry loop: the exploring-set mask and the
exit availabilities computed before the loop (`ants.py` lines 93-96, 125-131). -/
structure ExpParams (n : Nat) where
  E : Fin n → Bool
  hn : Fin n → Bool
  he : Fin n → Bool
  hw : Fin n → Bool
  hs : Fin n → Bool
  nbx : Fin n → Nat

/-- State of the retry loop: the colony plus the `valid_moves` flags. -/
structure LoopSt (n L : Nat) where
  col : Colony n L
  valid : Fin n → Bool

/-- The exploring agents whose last draw was not yet valid
(`ind_ants_to_move`, line 134). -/
def stuckMask {n L : Nat} (P : ExpParams n) (st : LoopSt n L) (a : Fin n) : Bool :=
  P.E a && !st.valid a

/-- The direction drawn this iteration, `dir = seed % 4` on the
freshly-advanced seed (lines 135-137). -/
def loopDir {n L : Nat} (st : LoopSt n L) (a : Fin n) : Int :=
  ((seedNext (st.col.seeds a) % 4 : Nat) : Int)

/-- The agent's current position as the loop body reads it (line 138). -/
def loopOld {n L : Nat} (st : LoopSt n L) (a : Fin n) : Pos :=
  histAt st.col a (st.col.age a)

/-- The gated candidate position of this iteration (lines 139-147). -/
def loopNew {n L : Nat} (P : ExpParams n) (st : LoopSt n L) (a : Fin n) : Pos :=
  newPosOf (loopDir st a) (loopOld st a) (P.hn a) (P.he a) (P.hw a) (P.hs a)

/-- The validity test of this iteration (lines 148-153): the agent moved,
and the draw is not the exact reverse of its stored direction unless its
cell has exactly one exit. -/
def loopOk {n L : Nat} (P : ExpParams n) (st : LoopSt n L) (a : Fin n) : Bool :=
  decide (loopNew P st a ≠ loopOld st a) &&
    (decide (loopDir st a ≠ 3 - st.col.directions a) || decide (P.nbx a = 1))

/-- The agents validated by this iteration (`ind_valid_moves`, line 155). -/
def newlyValid {n L : Nat} (P : ExpParams n) (st : LoopSt n L) (a : Fin n) : Bool :=
  stuckMask P st a && loopOk P st a

/-- One iteration of the retry loop body (`ants.py` lines 132-158): advance
every agent's seed, draw `dir = seed % 4` for the still-invalid exploring
agents, build the gated candidate position, validate it, and commit position
(at `age+1`) and direction for the newly valid agents. -/
def loopStep {n L : Nat} (P : ExpParams n) (st : LoopSt n L) : LoopSt n L :=
  { col := { st.col with
      seeds := fun a => seedNext (st.col.seeds a),
      historic_path := fun a i =>
        if (newlyValid P st a ∧ i = npi L (st.col.age a + 1)) then loopNew P st a
        else st.col.historic_path a i,
      directions := fun a =>
        if newlyValid P st a then loopDir st a else st.col.directions a },
    valid := fun a => if stuckMask P st a then loopOk P st a else st.valid a }

/-- The loop guard `np.any(valid_moves[ind_exploring_ants] == 0)` negated:
every exploring agent holds a valid move. -/
def loopDone {n L : Nat} (P : ExpParams n) (st : LoopSt n L) : Prop :=
  ∀ a : Fin n, P.E a = true → st.valid a = true

instance {n L : Nat} (P : ExpParams n) (st : LoopSt n L) : Decidable (loopDone P st) :=
  inferInstanceAs (Decidable (∀ _, _))

/-- The retry `while` loop, run with fuel: stop when every exploring agent is
valid, otherwise perform one `loopStep` and recurse. -/
def exploreLoop {n L : Nat} (P : ExpParams n) : Nat → LoopSt n L → LoopSt n L
  | 0, st => st
  | fuel + 1, st => if loopDone P st then st else exploreLoop P fuel (loopStep P st)

/-- Number of loop iterations actually executed within the given fuel. -/
def loopIters {n L : Nat} (P : ExpParams n) : Nat → LoopSt n L → Nat
  | 0, _ => 0
  | fuel + 1, st => if loopDone P st then 0 else loopIters P fuel (loopStep P st) + 1

/-- Line 89: advance the seed of every unloaded ant. -/
def exploreSeeds {n L : Nat} (U : Fin n → Bool) (c : Colony n L) : Colony n L :=
  { c with seeds := fun a => if U a then seedNext (c.seeds a) else c.seeds a }

/-- Line 92: the agents' current positions `historic_path[:, age, :]`. -/
def oldPosOf {n L : Nat} (c : Colony n L) : Fin n → Pos :=
  fun a => histAt c a (c.age a)

/-- Line 122: `choices = seeds / 2147483647`. -/
def choicesOf {n L : Nat} (c : Colony n L) : Fin n → ℚ :=
  fun a => (c.seeds a : ℚ) / 2147483647

/-- Lines 125-128: the exploring subset — unloaded, and either the random
draw is at or below the exploration coefficient or no scent is readable. -/
def exploringMask {n L : Nat} (U : Fin n → Bool) (mz : Maze) (ph : Pheromon)
    (c1 : Colony n L) : Fin n → Bool := fun a =>
  U a && (decide (choicesOf c1 a ≤ exploration_coefs) ||
    decide (maxPher mz ph (oldPosOf c1 a) = 0))

/-- Lines 160-161: the scent-following subset, the complement of the
exploring subset within the unloaded ants. -/
def followingMask {n L : Nat} (U : Fin n → Bool) (mz : Maze) (ph : Pheromon)
    (c1 : Colony n L) : Fin n → Bool := fun a =>
  U a && (decide (exploration_coefs < choicesOf c1 a) &&
    decide (0 < maxPher mz ph (oldPosOf c1 a)))

/-- The static loop data built from the post-seed-update colony. -/
def exploreParams {n L : Nat} (U : Fin n → Bool) (mz : Maze) (ph : Pheromon)
    (c1 : Colony n L) : ExpParams n :=
  { E := exploringMask U mz ph c1,
    hn := fun a => hasNorthExit mz (oldPosOf c1 a),
    he := fun a => hasEastExit mz (oldPosOf c1 a),
    hw := fun a => hasWestExit mz (oldPosOf c1 a),
    hs := fun a => hasSouthExit mz (oldPosOf c1 a),
    nbx := fun a => nbExits mz (oldPosOf c1 a) }

/-- Lines 162-175: every following ant moves by all tied deltas at once,
each coordinate adjusted by the (boolean) ties of the four directions. -/
def followStep {n L : Nat} (Fm tieN tieE tieW tieS : Fin n → Bool)
    (c2 : Colony n L) : Colony n L :=
  let base : Fin n → Pos := fun a => histAt c2 a (c2.age a)
  let fp : Fin n → Pos := fun a =>
    ( (base a).1 - (if tieN a then 1 else 0) + (if tieS a then 1 else 0),
      (base a).2 + (if tieE a then 1 else 0) - (if tieW a then 1 else 0) )
  { c2 with historic_path := fun a i =>
      if (Fm a ∧ i = npi L (c2.age a + 1)) then fp a else c2.historic_path a i }

/-- Lines 177-179: age every unloaded ant by one. -/
def ageStep {n L : Nat} (U : Fin n → Bool) (c : Colony n L) : Colony n L :=
  { c with age := fun a => if U a then c.age a + 1 else c.age a }

/-- Line 182: the ants whose age equals their maximal life. -/
def dyingMask {n L : Nat} (c : Colony n L) : Fin n → Bool :=
  fun a => decide (c.age a = (c.max_life a : Int))

/-- Lines 181-187: reset dying ants to age 0 at the nest facing nowhere. -/
def deathStep {n L : Nat} (pos_nest : Pos) (c : Colony n L) : Colony n L :=
  { c with
    age := fun a => if dyingMask c a then 0 else c.age a,
    historic_path := fun a i =>
      if dyingMask c a ∧ i = 0 then pos_nest else c.historic_path a i,
    directions := fun a => if dyingMask c a then DIR_NONE else c.directions a }

/-- Lines 189-194: unloaded ants standing on the food become loaded. -/
def foodStep {n L : Nat} (U : Fin n → Bool) (pos_food : Pos) (c : Colony n L) :
    Colony n L :=
  { c with is_loaded := fun a =>
      if (U a && decide (histAt c a (c.age a) = pos_food)) then true
      else c.is_loaded a }

/-- The method `Colony.explore` (`ants.py` lines 74-194), fuel-indexed because of the
retry `while` loop.  `U` is the `unloaded_ants` index set, as a mask. -/
def explore {n L : Nat} (U : Fin n → Bool) (mz : Maze) (pos_food pos_nest : Pos)
    (ph : Pheromon) (fuel : Nat) (c : Colony n L) : Colony n L :=
  let c1 : Colony n L := exploreSeeds U c
  let P : ExpParams n := exploreParams U mz ph c1
  let c2 : Colony n L := (exploreLoop P fuel ⟨c1, fun _ => false⟩).col
  let tie : (Maze → Pheromon → Pos → ℚ) → Fin n → Bool := fun pher a =>
    decide (pher mz ph (oldPosOf c1 a) = maxPher mz ph (oldPosOf c1 a))
  let c3 : Colony n L :=
    followStep (followingMask U mz ph c1)
      (tie northPher) (tie eastPher) (tie westPher) (tie southPher) c2
  foodStep U pos_food (deathStep pos_nest (ageStep U c3))

/-- Modelled from the spec: `pheromone.py` is not in `src/`.  The deposit
value at a cell is a function of the pre-tick snapshot field, the cell, and
its exit availabilities, with more exits giving a smaller deposit per exit
(spec section 4.1 step 3 and section 4.2).  The exits tuple is in the order
`ants.py` line 216 passes it: north, east, west, south. -/
def markValue (live : Phero) (p : Pos) (ex : Bool × Bool × Bool × Bool) : ℚ :=
  let gN : ℚ := if ex.1 then live p.1 (p.2 + 1) else 0
  let gE : ℚ := if ex.2.1 then live (p.1 + 1) (p.2 + 2) else 0
  let gW : ℚ := if ex.2.2.1 then live (p.1 + 1) p.2 else 0
  let gS : ℚ := if ex.2.2.2 then live (p.1 + 2) (p.2 + 1) else 0
  let cnt : ℚ := (if ex.1 then 1 else 0) + (if ex.2.1 then 1 else 0) +
    (if ex.2.2.1 then 1 else 0) + (if ex.2.2.2 then 1 else 0)
  (1 + gN + gE + gW + gS) / cnt

/-- Modelled from the spec: one `pheromones.mark(position, exits, staging)`
call; the reinforcement computed from the snapshot is written into the staging
array at the (ghost-shifted) cell, saturating by maximum. -/
def markStep (live : Phero) (p : Pos) (ex : Bool × Bool × Bool × Bool)
    (staged : Phero) : Phero := fun i j =>
  if i = p.1 + 1 ∧ j = p.2 + 1 then max (staged i j) (markValue live p ex)
  else staged i j

/-- The marking comprehension of `ants.py` lines 215-216, folded over an
explicit agent list so that deposit order can be studied. -/
def markAll {n : Nat} (live : Phero) (pos : Fin n → Pos)
    (ex : Fin n → Bool × Bool × Bool × Bool) : List (Fin n) → Phero → Phero
  | [], staged => staged
  | a :: l, staged => markAll live pos ex l (markStep live (pos a) (ex a) staged)

/-- The exit availabilities at each agent's current cell, in the order
`ants.py` line 216 passes them to `mark`: north, east, west, south. -/
def exitsTupleOf {n L : Nat} (mz : Maze) (c2 : Colony n L) :
    Fin n → Bool × Bool × Bool × Bool := fun a =>
  (hasNorthExit mz (oldPosOf c2 a), hasEastExit mz (oldPosOf c2 a),
    hasWestExit mz (oldPosOf c2 a), hasSouthExit mz (oldPosOf c2 a))

/-- The cross-worker field combine (`ants.py` lines 221-223):
`Allreduce(…, op=MPI.MAX)` is an element-wise maximum over the workers'
staged arrays. -/
def mergeTwo (f g : Phero) : Phero := fun i j => max (f i j) (g i j)

/-- Merging the staged fields of a nonempty list of workers. -/
def mergeAll : List Phero → Phero
  | [] => fun _ _ => 0
  | f :: l => l.foldl mergeTwo f

/-- The method `Colony.advance` (`ants.py` lines 196-225) for one worker: return loaded
ants to the nest (note: the call at line 202 passes `0`, not the incoming
`food_counter`), explore with the unloaded ones, then stage every agent's
deposit, each computed against the pre-tick field, at its current (post-move)
cell.  Returns the new colony, the staged local field (the cross-worker
combine is `mergeAll`), the returned `food_counter`, and `new_food`. -/
def advance {n L : Nat} (mz : Maze) (pos_food pos_nest : Pos) (ph : Pheromon)
    (fuel : Nat) (c : Colony n L) (food_counter : Int) :
    Colony n L × Phero × Int × Int :=
  let loadedM : Fin n → Bool := fun a => c.is_loaded a
  let unloadedM : Fin n → Bool := fun a => !c.is_loaded a
  let step1 : Colony n L × Int × Int :=
    if (∃ a, loadedM a = true) then
      let r := return_to_nest c loadedM pos_nest 0
      (r.1, r.2, r.2 - food_counter)
    else (c, food_counter, 0)
  let c1 := step1.1
  let fc1 := step1.2.1
  let new_food := step1.2.2
  let c2 : Colony n L :=
    if (∃ a, unloadedM a = true) then explore unloadedM mz pos_food pos_nest ph fuel c1
    else c1
  let staged : Phero :=
    markAll ph.pheromon (oldPosOf c2) (exitsTupleOf mz c2) (List.finRange n) ph.pheromon
  (c2, staged, fc1, new_food)

/-! ## Merge collective (claim C3) -/

/-- Folding the element-wise maximum over identical copies is the identity. -/
theorem foldl_mergeTwo_replicate (k : Nat) (F : Phero) :
    List.foldl mergeTwo F (List.replicate k F) = F := by
  induction k with
  | zero => rfl
  | succ m ih =>
    have hm : mergeTwo F F = F := by
      funext i j; simp [mergeTwo]
    simpa [List.replicate_succ, List.foldl_cons, hm] using ih

/-- C3: the cross-worker field merge is an element-wise maximum: for two
workers depositing different nonzero values at one cell the merged value is
the larger of the two (never their sum), and merging `N ≥ 1` identical copies
of a field `F` yields `F`. -/
theorem merge_is_elementwise_max (f g : Phero) (i j : Int) (hne : f i j ≠ g i j)
    (hf : 0 < f i j) (hg : 0 < g i j) (F : Phero) (N : Nat) (hN : 1 ≤ N) :
    mergeAll [f, g] i j = max (f i j) (g i j) ∧
    ((f i j < g i j ∧ mergeAll [f, g] i j = g i j) ∨
      (g i j < f i j ∧ mergeAll [f, g] i j = f i j)) ∧
    mergeAll [f, g] i j ≠ f i j + g i j ∧
    mergeAll (List.replicate N F) = F := by
  refine ⟨rfl, ?_, ?_, ?_⟩
  · rcases lt_or_gt_of_ne hne with h | h
    · exact Or.inl ⟨h, max_eq_right h.le⟩
    · exact Or.inr ⟨h, max_eq_left h.le⟩
  · have hlt : max (f i j) (g i j) < f i j + g i j := by
      rcases max_cases (f i j) (g i j) with ⟨h1, _⟩ | ⟨h1, _⟩ <;> rw [h1] <;> linarith
    exact ne_of_lt hlt
  · obtain ⟨m, rfl⟩ : ∃ m, N = m + 1 := ⟨N - 1, (Nat.succ_pred_eq_of_pos hN).symm⟩
    rw [List.replicate_succ]
    exact foldl_mergeTwo_replicate m F

/-- A constant staged field used as concrete data. -/
def fieldA : Phero := fun _ _ => 3

/-- A second constant staged field with a different value. -/
def fieldB : Phero := fun _ _ => 5

/-- A third constant field for the idempotence instance. -/
def fieldC : Phero := fun _ _ => 7

/-- Witness for C3 at two concrete worker fields depositing 3 and 5 at the
same cell, and three copies of a third field. -/
theorem merge_is_elementwise_max_witness :
    (fieldA 0 0 ≠ fieldB 0 0 ∧ (0:ℚ) < fieldA 0 0 ∧ (0:ℚ) < fieldB 0 0 ∧ (1:Nat) ≤ 3) ∧
    (mergeAll [fieldA, fieldB] 0 0 = max (fieldA 0 0) (fieldB 0 0) ∧
      ((fieldA 0 0 < fieldB 0 0 ∧ mergeAll [fieldA, fieldB] 0 0 = fieldB 0 0) ∨
        (fieldB 0 0 < fieldA 0 0 ∧ mergeAll [fieldA, fieldB] 0 0 = fieldA 0 0)) ∧
      mergeAll [fieldA, fieldB] 0 0 ≠ fieldA 0 0 + fieldB 0 0 ∧
      mergeAll (List.replicate 3 fieldC) = fieldC) :=
  ⟨⟨by decide, by decide, by decide, by decide⟩,
    merge_is_elementwise_max fieldA fieldB 0 0 (by decide) (by decide) (by decide)
      fieldC 3 (by decide)⟩

/-! ## Food-counter bookkeeping (claim C1)

`Colony.advance` line 202 calls `return_to_nest(loaded_ants, pos_nest, 0)`,
passing `0` where `return_to_nest`'s docstring expects the current quantity of
food, although the incoming `food_counter` is at hand.  When loaded ants
exist, the value `advance` returns is therefore just this tick's delivery
count, not the incoming counter plus the deliveries, and
`new_food = deliveries - incoming` can even be negative. -/

/-- A colony of one loaded ant at age 1 whose recorded path starts at the
nest, so it delivers this tick. -/
def colonyC1 : Colony 1 2 where
  seeds := fun _ => 5
  is_loaded := fun _ => true
  max_life := fun _ => 2
  age := fun _ => 1
  historic_path := fun _ i => if i = 0 then (0, 0) else (0, 1)
  directions := fun _ => DIR_NONE

/-- A maze with no open exits anywhere (irrelevant to the counter). -/
def mazeShut : Maze := { rows := 3, cols := 3, mask := fun _ _ => 0 }

/-- The all-zero pheromone field. -/
def pherZero : Pheromon := { pheromon := fun _ _ => 0 }

/-- C1, evaluated at the failing input: with incoming `food_counter = 5` and
exactly one loaded ant delivering at the nest this tick (a single
`loaded → unloaded` transition at the nest cell), `advance` returns `1`,
not `5 + 1` as the claim states, and the per-tick `new_food` it sends onward
is `1 - 5 = -4`, not `1`.  The delivering ant is indeed unloaded with age
reset to `0`, confirming exactly one transition happened. -/
theorem advance_food_counter_bug :
    (advance mazeShut (2, 2) (0, 0) pherZero 0 colonyC1 5).2.2.1 = 1 ∧
    (advance mazeShut (2, 2) (0, 0) pherZero 0 colonyC1 5).2.2.1 ≠ 5 + 1 ∧
    (advance mazeShut (2, 2) (0, 0) pherZero 0 colonyC1 5).2.2.2 = 1 - 5 ∧
    (advance mazeShut (2, 2) (0, 0) pherZero 0 colonyC1 5).2.2.2 ≠ 1 ∧
    (advance mazeShut (2, 2) (0, 0) pherZero 0 colonyC1 5).1.is_loaded 0 = false ∧
    (advance mazeShut (2, 2) (0, 0) pherZero 0 colonyC1 5).1.age 0 = 0 := by
  refine ⟨by decide, by decide, by decide, by decide, by decide, by decide⟩

/-! ## Seed bookkeeping of the retry loop (claim C8)

Line 89 advances only the unloaded ants' seeds, but line 135, inside the
retry loop, reads `self.seeds[:] = np.mod(16807*self.seeds[:], 2147483647)`:
it advances the seed of EVERY ant, loaded ones included, once per executed
loop iteration. -/

/-- Iterating the PRNG commutes with a single advance. -/
theorem seedIter_succ_comm (k s : Nat) : seedIter (k + 1) s = seedIter k (seedNext s) := by
  induction k with
  | zero => rfl
  | succ m ih => show seedNext (seedIter (m + 1) s) = _; rw [ih]; rfl

/-- Every agent's seed after the retry loop is its seed at loop entry
advanced once per executed iteration. -/
theorem exploreLoop_seeds {n L : Nat} (P : ExpParams n) (fuel : Nat)
    (st : LoopSt n L) (a : Fin n) :
    (exploreLoop P fuel st).col.seeds a = seedIter (loopIters P fuel st) (st.col.seeds a) := by
  induction fuel generalizing st with
  | zero => rfl
  | succ f ih =>
    by_cases hd : loopDone P st
    · simp [exploreLoop, loopIters, hd, seedIter]
    · simp only [exploreLoop, loopIters, if_neg hd]
      rw [ih, seedIter_succ_comm]
      rfl

/-- C8 (amended): during `explore`, a loaded agent's seed — untouched by the
line-89 update — is advanced exactly once per executed retry-loop iteration,
via the recurrence `seed = (16807*seed) mod 2147483647`; it is unchanged only
when zero iterations execute. -/
theorem explore_seed_of_loaded_ant {n L : Nat} (U : Fin n → Bool) (mz : Maze)
    (pos_food pos_nest : Pos) (ph : Pheromon) (fuel : Nat) (c : Colony n L)
    (a : Fin n) (hU : U a = false) :
    (explore U mz pos_food pos_nest ph fuel c).seeds a =
      seedIter
        (loopIters (exploreParams U mz ph (exploreSeeds U c)) fuel
          ⟨exploreSeeds U c, fun _ => false⟩)
        (c.seeds a) := by
  show (foodStep _ _ (deathStep _ (ageStep _ (followStep _ _ _ _ _ _)))).seeds a = _
  simp only [foodStep, deathStep, ageStep, followStep]
  rw [exploreLoop_seeds]
  simp [exploreSeeds, hU]

/-- A 1×2 maze whose two cells open onto each other. -/
def mazeC8 : Maze :=
  { rows := 1, cols := 2,
    mask := fun i j => if (i, j) = ((0 : Int), (0 : Int)) then EAST
      else if (i, j) = ((0 : Int), (1 : Int)) then WEST else 0 }

/-- Two ants: ant 0 loaded (seed 1), ant 1 unloaded and exploring. -/
def colonyC8 : Colony 2 3 where
  seeds := fun _ => 1
  is_loaded := fun a => decide (a.val = 0)
  max_life := fun _ => 3
  age := fun a => if a.val = 0 then 1 else 0
  historic_path := fun a i =>
    if a.val = 0 then (if i = 0 then (0, 0) else (0, 1)) else (0, 0)
  directions := fun _ => DIR_NONE

/-- C8, refuted as stated: in a tick where the single unloaded ant explores
(one retry iteration suffices), the LOADED ant 0's seed is advanced by the
loop from 1 to 16807, although `explore` was expected to leave it unchanged. -/
theorem explore_changes_loaded_seed :
    colonyC8.is_loaded 0 = true ∧
    colonyC8.seeds 0 = 1 ∧
    (explore (fun a => !colonyC8.is_loaded a) mazeC8 (2, 2) (0, 0) pherZero 2
        colonyC8).seeds 0 = 16807 ∧
    (16807 : Nat) ≠ 1 := by
  refine ⟨by decide, by decide, by decide!, by decide⟩

/-- Witness for the amended C8 at the same concrete tick: ant 0 is not in the
unloaded set, and its post-`explore` seed is `seedIter r 1` for `r` the
number of executed iterations. -/
theorem explore_seed_of_loaded_ant_witness :
    ((fun a => !colonyC8.is_loaded a) (0 : Fin 2) = false) ∧
    (explore (fun a => !colonyC8.is_loaded a) mazeC8 (2, 2) (0, 0) pherZero 2
        colonyC8).seeds 0 =
      seedIter
        (loopIters
          (exploreParams (fun a => !colonyC8.is_loaded a) mazeC8 pherZero
            (exploreSeeds (fun a => !colonyC8.is_loaded a) colonyC8))
          2
          ⟨exploreSeeds (fun a => !colonyC8.is_loaded a) colonyC8, fun _ => false⟩)
        (colonyC8.seeds 0) :=
  ⟨by decide, explore_seed_of_loaded_ant (fun a => !colonyC8.is_loaded a) mazeC8
    (2, 2) (0, 0) pherZero 2 colonyC8 0 (by decide)⟩

/-! ## Frame lemmas for the retry loop -/

/-- The retry loop never touches ages, maximal lives or loadedness. -/
theorem exploreLoop_frame {n L : Nat} (P : ExpParams n) (fuel : Nat) (st : LoopSt n L) :
    (exploreLoop P fuel st).col.age = st.col.age ∧
    (exploreLoop P fuel st).col.max_life = st.col.max_life ∧
    (exploreLoop P fuel st).col.is_loaded = st.col.is_loaded := by
  induction fuel generalizing st with
  | zero => exact ⟨rfl, rfl, rfl⟩
  | succ f ih =>
    by_cases hd : loopDone P st
    · simp [exploreLoop, hd]
    · simp only [exploreLoop, if_neg hd]
      exact (ih (loopStep P st))

/-- The retry loop writes an agent's history row only at the slot one past
the agent's (loop-constant) age. -/
theorem exploreLoop_hist_frame {n L : Nat} (P : ExpParams n) (fuel : Nat)
    (st : LoopSt n L) (a : Fin n) (i : Int) (hi : i ≠ npi L (st.col.age a + 1)) :
    (exploreLoop P fuel st).col.historic_path a i = st.col.historic_path a i := by
  induction fuel generalizing st with
  | zero => rfl
  | succ f ih =>
    by_cases hd : loopDone P st
    · simp [exploreLoop, hd]
    · simp only [exploreLoop, if_neg hd]
      have hage : (loopStep P st).col.age = st.col.age := rfl
      rw [ih (loopStep P st) (by rw [hage]; exact hi)]
      simp only [loopStep]
      rw [if_neg]
      intro hcon
      exact hi hcon.2

/-- An agent outside the exploring set keeps its stored direction through the
whole retry loop. -/
theorem exploreLoop_directions_of_notE {n L : Nat} (P : ExpParams n) (fuel : Nat)
    (st : LoopSt n L) (a : Fin n) (hE : P.E a = false) :
    (exploreLoop P fuel st).col.directions a = st.col.directions a := by
  induction fuel generalizing st with
  | zero => rfl
  | succ f ih =>
    by_cases hd : loopDone P st
    · simp [exploreLoop, hd]
    · simp only [exploreLoop, if_neg hd]
      rw [ih (loopStep P st)]
      simp [loopStep, newlyValid, stuckMask, hE]

/-! ## The scent-following branch and stored directions (claim C10) -/

/-- A following ant is never in the exploring set: the two masks come from
complementary tests on `choices` and `max_pheromones`. -/
theorem followingMask_not_exploring {n L : Nat} (U : Fin n → Bool) (mz : Maze)
    (ph : Pheromon) (c1 : Colony n L) (a : Fin n)
    (hF : followingMask U mz ph c1 a = true) : exploringMask U mz ph c1 a = false := by
  simp only [followingMask, Bool.and_eq_true, decide_eq_true_eq] at hF
  simp only [exploringMask, Bool.and_eq_false_iff, Bool.or_eq_false_iff,
    decide_eq_false_iff_not]
  exact Or.inr ⟨not_le_of_lt hF.2.1, ne_of_gt hF.2.2⟩

/-- C10: the scent-following branch never writes `directions` (the
`followStep` sub-function returns them untouched), so an agent that moves by
following pheromone in a tick keeps its stored direction through `explore`
unless the end-of-life reset fires, in which case it becomes `DIR_NONE`. -/
theorem follow_keeps_direction {n L : Nat} (U : Fin n → Bool) (mz : Maze)
    (pos_food pos_nest : Pos) (ph : Pheromon) (fuel : Nat) (c : Colony n L)
    (a : Fin n) (hF : followingMask U mz ph (exploreSeeds U c) a = true) :
    (∀ (Fm tN tE tW tS : Fin n → Bool) (c2 : Colony n L),
      (followStep Fm tN tE tW tS c2).directions = c2.directions) ∧
    (explore U mz pos_food pos_nest ph fuel c).directions a =
      (if c.age a + 1 = (c.max_life a : Int) then DIR_NONE else c.directions a) := by
  constructor
  · intro Fm tN tE tW tS c2; rfl
  · have hU : U a = true := by
      have := hF
      simp only [followingMask, Bool.and_eq_true] at this
      exact this.1
    have hE : exploringMask U mz ph (exploreSeeds U c) a = false :=
      followingMask_not_exploring U mz ph (exploreSeeds U c) a hF
    show (foodStep _ _ (deathStep _ (ageStep _ (followStep _ _ _ _ _ _)))).directions a = _
    set st1 := exploreLoop (exploreParams U mz ph (exploreSeeds U c)) fuel
      ⟨exploreSeeds U c, fun _ => false⟩ with hst1
    have hdir : st1.col.directions a = c.directions a := by
      rw [hst1, exploreLoop_directions_of_notE _ _ _ _ hE]
      rfl
    have hage : st1.col.age a = c.age a := by
      rw [hst1, (exploreLoop_frame _ _ _).1]
      rfl
    have hml : st1.col.max_life a = c.max_life a := by
      rw [hst1, (exploreLoop_frame _ _ _).2.1]
      rfl
    simp only [foodStep, deathStep, ageStep, followStep, dyingMask, hU, if_pos]
    simp [hdir, hage, hml]

/-- A single unloaded ant at `(0,0)` of the 1×2 maze with positive scent to
its east: it follows the scent. -/
def colonyC10 : Colony 1 3 where
  seeds := fun _ => 1
  is_loaded := fun _ => false
  max_life := fun _ => 3
  age := fun _ => 0
  historic_path := fun _ _ => (0, 0)
  directions := fun _ => DIR_NONE

/-- A field with scent 5 on the (ghost-coordinate) cell east of `(0,0)`. -/
def pherC10 : Pheromon :=
  { pheromon := fun i j => if (i, j) = ((1 : Int), (2 : Int)) then 5 else 0 }

/-- Witness for C10: the concrete ant is in the scent-following set, and its
direction after `explore` is given by the theorem. -/
theorem follow_keeps_direction_witness :
    (followingMask (fun a => !colonyC10.is_loaded a) mazeC8 pherC10
      (exploreSeeds (fun a => !colonyC10.is_loaded a) colonyC10) 0 = true) ∧
    ((∀ (Fm tN tE tW tS : Fin 1 → Bool) (c2 : Colony 1 3),
      (followStep Fm tN tE tW tS c2).directions = c2.directions) ∧
    (explore (fun a => !colonyC10.is_loaded a) mazeC8 (5, 5) (0, 0) pherC10 2
        colonyC10).directions 0 =
      (if colonyC10.age 0 + 1 = (colonyC10.max_life 0 : Int) then DIR_NONE
        else colonyC10.directions 0)) :=
  ⟨by decide!, follow_keeps_direction (fun a => !colonyC10.is_loaded a) mazeC8
    (5, 5) (0, 0) pherC10 2 colonyC10 0 (by decide!)⟩

/-! ## Acceptance invariant of the retry loop (claims C6, C5) -/

/-- What the retry loop guarantees for an exploring agent it has validated:
the accepted draw `d` moves the agent away from its pre-move cell `op` (so
the chosen direction has an open exit), it is not the exact reverse
`3 - d0` of the agent's entry direction unless the cell has exactly one
exit, and it is one of the four draws `0..3`. -/
def Accept {n : Nat} (P : ExpParams n) (d0 : Int) (op : Pos) (a : Fin n) (d : Int) : Prop :=
  newPosOf d op (P.hn a) (P.he a) (P.hw a) (P.hs a) ≠ op ∧
  (d ≠ 3 - d0 ∨ P.nbx a = 1) ∧ 0 ≤ d ∧ d < 4

/-- Invariant carried through the retry loop, relative to the loop-entry
ages `A`, directions `D0` and positions `OP`: ages are untouched, an
invalid exploring agent still has its entry direction, every agent still
shows its entry position at its age slot, and every validated exploring
agent has an accepted direction with the matching move written at `age+1`. -/
def LoopGood {n L : Nat} (P : ExpParams n) (A D0 : Fin n → Int)
    (OP : Fin n → Pos) (st : LoopSt n L) : Prop :=
  st.col.age = A ∧
  (∀ a, P.E a = true → st.valid a = false → st.col.directions a = D0 a) ∧
  (∀ a, histAt st.col a (A a) = OP a) ∧
  (∀ a, P.E a = true → st.valid a = true →
    Accept P (D0 a) (OP a) a (st.col.directions a) ∧
    histAt st.col a (A a + 1) =
      newPosOf (st.col.directions a) (OP a) (P.hn a) (P.he a) (P.hw a) (P.hs a))

/-- One loop iteration preserves the invariant. -/
theorem loopStep_good {n L : Nat} (P : ExpParams n) (A D0 : Fin n → Int)
    (OP : Fin n → Pos) (st : LoopSt n L) (hA : ∀ b, 0 ≤ A b)
    (hg : LoopGood P A D0 OP st) : LoopGood P A D0 OP (loopStep P st) := by
  obtain ⟨hage, hdir0, hpos, hacc⟩ := hg
  have hnpiA : ∀ b, npi L (A b) = A b := fun b => by
    simp [npi, not_lt.mpr (hA b)]
  have hnpiA1 : ∀ b, npi L (A b + 1) = A b + 1 := fun b => by
    have h1 : (0:Int) ≤ A b + 1 := by linarith [hA b]
    simp [npi, not_lt.mpr h1]
  have hageF : ∀ b, st.col.age b = A b := fun b => congrFun hage b
  have hnowrite : ∀ b, ¬(newlyValid P st b = true ∧ npi L (A b) = npi L (st.col.age b + 1)) := by
    rintro b ⟨-, hcon⟩
    rw [hageF b, hnpiA b, hnpiA1 b] at hcon
    omega
  refine ⟨hage, ?_, ?_, ?_⟩
  · -- an invalid exploring agent still holds its entry direction
    intro a hE hv
    have hv' : (if stuckMask P st a then loopOk P st a else st.valid a) = false := hv
    show (if newlyValid P st a then loopDir st a else st.col.directions a) = D0 a
    cases hstuck : stuckMask P st a with
    | true =>
      rw [hstuck, if_pos rfl] at hv'
      rw [newlyValid, hstuck, Bool.true_and, hv', if_neg Bool.false_ne_true]
      have hvold : st.valid a = false := by
        have := hstuck
        simp only [stuckMask, Bool.and_eq_true, Bool.not_eq_true'] at this
        exact this.2
      exact hdir0 a hE hvold
    | false =>
      rw [hstuck, if_neg Bool.false_ne_true] at hv'
      have hvold : st.valid a = true := by
        have := hstuck
        simp only [stuckMask, hE, Bool.true_and, Bool.not_eq_false'] at this
        exact this
      rw [hvold] at hv'
      exact absurd hv' (by simp)
  · -- the entry position is still at the age slot
    intro a
    show (loopStep P st).col.historic_path a (npi L (A a)) = OP a
    have : (loopStep P st).col.historic_path a (npi L (A a)) =
        st.col.historic_path a (npi L (A a)) := by
      show (if _ then _ else _) = _
      rw [if_neg (hnowrite a)]
    rw [this]
    exact hpos a
  · -- validated agents have accepted directions and the matching write
    intro a hE hv
    have hv' : (if stuckMask P st a then loopOk P st a else st.valid a) = true := hv
    cases hstuck : stuckMask P st a with
    | true =>
      rw [hstuck, if_pos rfl] at hv'
      have hnew : newlyValid P st a = true := by
        rw [newlyValid, hstuck, Bool.true_and]; exact hv'
      have hvold : st.valid a = false := by
        have := hstuck
        simp only [stuckMask, Bool.and_eq_true, Bool.not_eq_true'] at this
        exact this.2
      have hD0 : st.col.directions a = D0 a := hdir0 a hE hvold
      have hOP : loopOld st a = OP a := by
        rw [loopOld, histAt, hageF a]
        exact hpos a
      have hdirnew : (loopStep P st).col.directions a = loopDir st a := by
        show (if newlyValid P st a then loopDir st a else st.col.directions a) = _
        rw [hnew, if_pos rfl]
      obtain ⟨hmove, hrest⟩ : (loopNew P st a ≠ loopOld st a) ∧
          ((loopDir st a ≠ 3 - st.col.directions a) ∨ P.nbx a = 1) := by
        have := hv'
        simp only [loopOk, Bool.and_eq_true, Bool.or_eq_true, decide_eq_true_eq] at this
        exact this
      constructor
      · rw [hdirnew]
        refine ⟨?_, ?_, Int.natCast_nonneg _, ?_⟩
        · rw [← hOP]
          show newPosOf (loopDir st a) (loopOld st a) _ _ _ _ ≠ loopOld st a
          exact hmove
        · rcases hrest with h | h
          · exact Or.inl (hD0 ▸ h)
          · exact Or.inr h
        · show ((seedNext (st.col.seeds a) % 4 : Nat) : Int) < 4
          exact_mod_cast Nat.mod_lt _ (by norm_num)
      · rw [hdirnew]
        show (loopStep P st).col.historic_path a (npi L (A a + 1)) = _
        have hwrite : (loopStep P st).col.historic_path a (npi L (A a + 1)) =
            loopNew P st a := by
          show (if _ then _ else _) = _
          rw [if_pos ⟨hnew, by rw [hageF a]⟩]
        rw [hwrite, loopNew, hOP]
    | false =>
      rw [hstuck, if_neg Bool.false_ne_true] at hv'
      have hnotnew : newlyValid P st a = false := by
        rw [newlyValid, hstuck, Bool.false_and]
      have hdirold : (loopStep P st).col.directions a = st.col.directions a := by
        show (if newlyValid P st a then loopDir st a else st.col.directions a) = _
        rw [hnotnew, if_neg Bool.false_ne_true]
      obtain ⟨ha1, ha2⟩ := hacc a hE hv'
      constructor
      · rw [hdirold]; exact ha1
      · rw [hdirold]
        show (loopStep P st).col.historic_path a (npi L (A a + 1)) = _
        have hsame : (loopStep P st).col.historic_path a (npi L (A a + 1)) =
            st.col.historic_path a (npi L (A a + 1)) := by
          show (if _ then _ else _) = _
          rw [if_neg]
          rintro ⟨hc, -⟩
          rw [hnotnew] at hc
          exact Bool.false_ne_true hc
        rw [hsame]
        exact ha2

/-- The invariant survives the whole fuel run of the retry loop. -/
theorem exploreLoop_good {n L : Nat} (P : ExpParams n) (A D0 : Fin n → Int)
    (OP : Fin n → Pos) (fuel : Nat) (st : LoopSt n L) (hA : ∀ b, 0 ≤ A b)
    (hg : LoopGood P A D0 OP st) : LoopGood P A D0 OP (exploreLoop P fuel st) := by
  induction fuel generalizing st with
  | zero => exact hg
  | succ f ih =>
    by_cases hd : loopDone P st
    · simpa [exploreLoop, hd] using hg
    · simp only [exploreLoop, if_neg hd]
      exact ih _ (loopStep_good P A D0 OP st hA hg)

/-- The loop entry state satisfies the invariant. -/
theorem loopGood_entry {n L : Nat} (U : Fin n → Bool) (mz : Maze) (ph : Pheromon)
    (c1 : Colony n L) :
    LoopGood (exploreParams U mz ph c1) c1.age c1.directions (oldPosOf c1)
      ⟨c1, fun _ => false⟩ :=
  ⟨rfl, fun _ _ _ => rfl, fun _ => rfl, fun _ _ hv => by exact absurd hv (by simp)⟩

/-! ## No-U-turn property (claim C6) -/

/-- C6: for an unloaded agent in the exploring branch whose cell has at
least two open exits, the direction the retry loop accepts is never the
exact reverse `3 - direction` of the agent's previous stored direction;
the restriction is dropped only by the one-exit escape `nb_exits == 1`. -/
theorem explore_no_uturn {n L : Nat} (U : Fin n → Bool) (mz : Maze) (ph : Pheromon)
    (fuel : Nat) (c : Colony n L) (a : Fin n)
    (hage : ∀ b, 0 ≤ c.age b)
    (hE : exploringMask U mz ph (exploreSeeds U c) a = true)
    (hdone : loopDone (exploreParams U mz ph (exploreSeeds U c))
      (exploreLoop (exploreParams U mz ph (exploreSeeds U c)) fuel
        ⟨exploreSeeds U c, fun _ => false⟩))
    (hex : 2 ≤ nbExits mz (oldPosOf (exploreSeeds U c) a)) :
    (exploreLoop (exploreParams U mz ph (exploreSeeds U c)) fuel
      ⟨exploreSeeds U c, fun _ => false⟩).col.directions a ≠ 3 - c.directions a := by
  have hgood := exploreLoop_good (exploreParams U mz ph (exploreSeeds U c))
    (exploreSeeds U c).age (exploreSeeds U c).directions
    (oldPosOf (exploreSeeds U c)) fuel ⟨exploreSeeds U c, fun _ => false⟩
    hage (loopGood_entry U mz ph (exploreSeeds U c))
  have hvalid := hdone a hE
  have hacc := (hgood.2.2.2 a hE hvalid).1
  rcases hacc.2.1 with h | h
  · exact h
  · have h' : nbExits mz (oldPosOf (exploreSeeds U c) a) = 1 := h
    omega

/-- One unloaded exploring ant at cell `(1,0)` of a 2×2 fully-open maze. -/
def mazeOpen2 : Maze :=
  { rows := 2, cols := 2,
    mask := fun i j =>
      if (i, j) = ((0 : Int), (0 : Int)) then EAST + SOUTH
      else if (i, j) = ((0 : Int), (1 : Int)) then WEST + SOUTH
      else if (i, j) = ((1 : Int), (0 : Int)) then NORTH + EAST
      else if (i, j) = ((1 : Int), (1 : Int)) then NORTH + WEST
      else 0 }

/-- A single unloaded ant at `(1,0)`, stored direction none, seed 1, in a
zero field (so it explores randomly). -/
def colonyC6 : Colony 1 3 where
  seeds := fun _ => 1
  is_loaded := fun _ => false
  max_life := fun _ => 3
  age := fun _ => 0
  historic_path := fun _ _ => (1, 0)
  directions := fun _ => DIR_NONE

/-- Witness for C6 at the concrete two-exit instance: the loop finishes
(with fuel 2) and the accepted direction is not the reverse of the previous
one. -/
theorem explore_no_uturn_witness :
    ((∀ b : Fin 1, 0 ≤ colonyC6.age b) ∧
      exploringMask (fun a => !colonyC6.is_loaded a) mazeOpen2 pherZero
        (exploreSeeds (fun a => !colonyC6.is_loaded a) colonyC6) 0 = true ∧
      loopDone
        (exploreParams (fun a => !colonyC6.is_loaded a) mazeOpen2 pherZero
          (exploreSeeds (fun a => !colonyC6.is_loaded a) colonyC6))
        (exploreLoop
          (exploreParams (fun a => !colonyC6.is_loaded a) mazeOpen2 pherZero
            (exploreSeeds (fun a => !colonyC6.is_loaded a) colonyC6)) 2
          ⟨exploreSeeds (fun a => !colonyC6.is_loaded a) colonyC6, fun _ => false⟩) ∧
      2 ≤ nbExits mazeOpen2
        (oldPosOf (exploreSeeds (fun a => !colonyC6.is_loaded a) colonyC6) 0)) ∧
    (exploreLoop
      (exploreParams (fun a => !colonyC6.is_loaded a) mazeOpen2 pherZero
        (exploreSeeds (fun a => !colonyC6.is_loaded a) colonyC6)) 2
      ⟨exploreSeeds (fun a => !colonyC6.is_loaded a) colonyC6, fun _ => false⟩).col.directions 0 ≠
        3 - colonyC6.directions 0 :=
  ⟨⟨by decide, by decide!, by decide!, by decide⟩,
    explore_no_uturn (fun a => !colonyC6.is_loaded a) mazeOpen2 pherZero 2 colonyC6 0
      (by decide) (by decide!) (by decide!) (by decide)⟩

/-! ## Scent deposit: snapshot isolation and deposit cells (claim C2) -/

/-- Two deposits commute: each deposit value is computed from the pre-tick
snapshot only (never from the staging array), and writes combine by maximum,
so the staged result does not depend on their order. -/
theorem markStep_comm (live : Phero) (p1 p2 : Pos)
    (e1 e2 : Bool × Bool × Bool × Bool) (st : Phero) :
    markStep live p1 e1 (markStep live p2 e2 st) =
      markStep live p2 e2 (markStep live p1 e1 st) := by
  funext i j
  simp only [markStep]
  by_cases h1 : i = p1.1 + 1 ∧ j = p1.2 + 1 <;>
    by_cases h2 : i = p2.1 + 1 ∧ j = p2.2 + 1
  · simp only [if_pos h1, if_pos h2]
    exact sup_right_comm _ _ _
  · simp only [if_pos h1, if_neg h2]
  · simp only [if_neg h1, if_pos h2]
  · simp only [if_neg h1, if_neg h2]

/-- Applying the tick's deposits in any order yields the same staged field. -/
theorem markAll_perm {n : Nat} (live : Phero) (pos : Fin n → Pos)
    (ex : Fin n → Bool × Bool × Bool × Bool) {l1 l2 : List (Fin n)}
    (h : l1.Perm l2) (st : Phero) :
    markAll live pos ex l1 st = markAll live pos ex l2 st := by
  induction h generalizing st with
  | nil => rfl
  | cons x _ ih => simp only [markAll]; exact ih _
  | swap x y l => simp only [markAll]; rw [markStep_comm]
  | trans _ _ ih1 ih2 => exact (ih1 st).trans (ih2 st)

/-- C2 (amended): the staged field `advance` builds deposits, for every
agent, at the agent's POST-move cell (its current position after this
tick's move, `historic_path[i, age[i]]` read after `explore`), each deposit
computed against the pre-tick field; and since deposits only read the
snapshot and combine by maximum, applying them in any order (any permutation
of the agent list) produces the same staged field. -/
theorem advance_mark_postmove_order_indep {n L : Nat} (mz : Maze)
    (pos_food pos_nest : Pos) (ph : Pheromon) (fuel : Nat) (c : Colony n L)
    (fc : Int) (l : List (Fin n)) (hl : l.Perm (List.finRange n)) :
    (advance mz pos_food pos_nest ph fuel c fc).2.1 =
      markAll ph.pheromon (oldPosOf (advance mz pos_food pos_nest ph fuel c fc).1)
        (exitsTupleOf mz (advance mz pos_food pos_nest ph fuel c fc).1) l
        ph.pheromon := by
  have hdef : (advance mz pos_food pos_nest ph fuel c fc).2.1 =
      markAll ph.pheromon (oldPosOf (advance mz pos_food pos_nest ph fuel c fc).1)
        (exitsTupleOf mz (advance mz pos_food pos_nest ph fuel c fc).1)
        (List.finRange n) ph.pheromon := rfl
  rw [hdef, markAll_perm _ _ _ hl]

/-- Witness for the amended C2: two ants (the C8 colony), and the deposit
fold applied in the reversed agent order gives the staged field. -/
theorem advance_mark_postmove_order_indep_witness :
    ([(1 : Fin 2), 0].Perm (List.finRange 2)) ∧
    (advance mazeC8 (5, 5) (0, 0) pherZero 2 colonyC8 0).2.1 =
      markAll pherZero.pheromon
        (oldPosOf (advance mazeC8 (5, 5) (0, 0) pherZero 2 colonyC8 0).1)
        (exitsTupleOf mazeC8 (advance mazeC8 (5, 5) (0, 0) pherZero 2 colonyC8 0).1)
        [(1 : Fin 2), 0] pherZero.pheromon :=
  ⟨by decide, advance_mark_postmove_order_indep mazeC8 (5, 5) (0, 0) pherZero 2
    colonyC8 0 [1, 0] (by decide)⟩

/-- A single unloaded ant at `(0,0)` of the open 1×2 maze, seed 1. -/
def colonyC2 : Colony 1 3 where
  seeds := fun _ => 1
  is_loaded := fun _ => false
  max_life := fun _ => 3
  age := fun _ => 0
  historic_path := fun _ _ => (0, 0)
  directions := fun _ => DIR_NONE

/-- C2, refuted as stated: in a concrete tick the ant moves `(0,0) → (0,1)`;
the staged field is unchanged at the ghost cell `(1,1)` of its PRE-move cell
`(0,0)`, while the deposit landed at the ghost cell `(1,2)` of its POST-move
cell `(0,1)`. -/
theorem advance_marks_postmove_cell :
    oldPosOf colonyC2 0 = (0, 0) ∧
    oldPosOf (advance mazeC8 (5, 5) (0, 0) pherZero 2 colonyC2 0).1 0 = (0, 1) ∧
    (advance mazeC8 (5, 5) (0, 0) pherZero 2 colonyC2 0).2.1 1 1 =
      pherZero.pheromon 1 1 ∧
    (advance mazeC8 (5, 5) (0, 0) pherZero 2 colonyC2 0).2.1 1 2 ≠
      pherZero.pheromon 1 2 := by
  refine ⟨by decide, by decide!, by decide!, by decide!⟩

/-! ## The tick invariant (claims C4, C9) -/

/-- Function `npi` is the identity on non-negative indices. -/
theorem npi_of_nonneg {L : Nat} {i : Int} (h : 0 ≤ i) : npi L i = i := by
  simp [npi, not_lt.mpr h]

/-- The per-tick state invariant: every agent's history row 0 is the nest
(the constructor writes the nest there and only the end-of-life reset ever
rewrites it), ages are non-negative and strictly below the agent's maximal
life, and loaded agents have age at least 1. -/
def Inv {n L : Nat} (pos_nest : Pos) (c : Colony n L) : Prop :=
  (∀ a, c.historic_path a 0 = pos_nest) ∧
  (∀ a, 0 ≤ c.age a) ∧
  (∀ a, c.age a < (c.max_life a : Int)) ∧
  (∀ a, c.is_loaded a = true → 1 ≤ c.age a)

instance {n L : Nat} (pos_nest : Pos) (c : Colony n L) : Decidable (Inv pos_nest c) :=
  inferInstanceAs (Decidable ((∀ a, c.historic_path a 0 = pos_nest) ∧
    (∀ a, 0 ≤ c.age a) ∧ (∀ a, c.age a < (c.max_life a : Int)) ∧
    (∀ a, c.is_loaded a = true → 1 ≤ c.age a)))

/-- Method `return_to_nest` (with the loaded mask `advance` passes it) preserves
the invariant: ages of loaded ants stay non-negative because a loaded ant
reaching age 0 is necessarily at the nest (history row 0) and is unloaded
with age reset there and then. -/
theorem return_to_nest_inv {n L : Nat} (c : Colony n L) (pos_nest : Pos) (k : Int)
    (hInv : Inv pos_nest c) :
    Inv pos_nest (return_to_nest c (fun a => c.is_loaded a) pos_nest k).1 := by
  obtain ⟨h0, hpos, hlt, hload⟩ := hInv
  set loaded : Fin n → Bool := fun a => c.is_loaded a with hloadedDef
  have hage1 : ∀ a, 0 ≤ rtnAge1 c loaded a := by
    intro a
    rw [rtnAge1]
    by_cases hl : loaded a = true
    · have := hload a hl
      rw [if_pos hl]
      omega
    · rw [if_neg hl]
      exact hpos a
  have hage1lt : ∀ a, rtnAge1 c loaded a < (c.max_life a : Int) := by
    intro a
    rw [rtnAge1]
    have := hlt a
    split <;> omega
  have hAgeProj : ∀ a, (return_to_nest c loaded pos_nest k).1.age a =
      (if rtnInNest c loaded pos_nest a then 0 else rtnAge1 c loaded a) := fun a => rfl
  have hLoadProj : ∀ a, (return_to_nest c loaded pos_nest k).1.is_loaded a =
      (if rtnInNest c loaded pos_nest a then false else c.is_loaded a) := fun a => rfl
  refine ⟨fun a => h0 a, ?_, ?_, ?_⟩
  · intro a
    rw [hAgeProj a]
    split
    · omega
    · exact hage1 a
  · intro a
    rw [hAgeProj a]
    have hm : (0:Int) < (c.max_life a : Int) := lt_of_le_of_lt (hpos a) (hlt a)
    split
    · exact hm
    · exact hage1lt a
  · intro a hl'
    rw [hLoadProj a] at hl'
    rw [hAgeProj a]
    by_cases hn : rtnInNest c loaded pos_nest a = true
    · rw [if_pos hn] at hl'
      exact absurd hl' (by simp)
    · rw [if_neg hn] at hl'
      rw [if_neg hn]
      -- still loaded, not found at the nest: decremented age cannot be 0
      have hge : 0 ≤ rtnAge1 c loaded a := hage1 a
      rcases lt_or_eq_of_le hge with h | h
      · omega
      · exfalso
        apply hn
        rw [rtnInNest]
        have hl : loaded a = true := hl'
        rw [hl, Bool.true_and, decide_eq_true_eq, histAt, ← h,
          npi_of_nonneg le_rfl]
        exact h0 a

/-- Method `explore` preserves the invariant when the food is not at the nest and
the unloaded mask only names unloaded ants: the retry loop and the following
branch write history only at slot `age+1 ≥ 1`, aging is followed by the
end-of-life reset, and an ant can only pick up food at age ≥ 1 because at
age 0 it stands on the nest. -/
theorem explore_inv {n L : Nat} (U : Fin n → Bool) (mz : Maze)
    (pos_food pos_nest : Pos) (ph : Pheromon) (fuel : Nat) (c : Colony n L)
    (hfn : pos_food ≠ pos_nest) (hInv : Inv pos_nest c)
    (hU : ∀ a, U a = true → c.is_loaded a = false) :
    Inv pos_nest (explore U mz pos_food pos_nest ph fuel c) := by
  obtain ⟨h0, hpos, hlt, hload⟩ := hInv
  set cS : Colony n L := exploreSeeds U c with hcS
  have hSage : cS.age = c.age := rfl
  have hSml : cS.max_life = c.max_life := rfl
  have hSload : cS.is_loaded = c.is_loaded := rfl
  have hShist : cS.historic_path = c.historic_path := rfl
  set P : ExpParams n := exploreParams U mz ph cS with hP
  set st0 : LoopSt n L := ⟨cS, fun _ => false⟩ with hst0
  set c2 : Colony n L := (exploreLoop P fuel st0).col with hc2
  have h2age : c2.age = c.age := (exploreLoop_frame P fuel st0).1
  have h2ml : c2.max_life = c.max_life := (exploreLoop_frame P fuel st0).2.1
  have h2load : c2.is_loaded = c.is_loaded := (exploreLoop_frame P fuel st0).2.2
  have h2hist0 : ∀ a, c2.historic_path a 0 = pos_nest := by
    intro a
    rw [hc2, exploreLoop_hist_frame P fuel st0 a 0 ?_]
    · exact h0 a
    · rw [npi_of_nonneg (by have := hpos a; show (0:Int) ≤ c.age a + 1; omega)]
      have := hpos a
      show (0:Int) ≠ c.age a + 1
      omega
  set tie : (Maze → Pheromon → Pos → ℚ) → Fin n → Bool := fun pher a =>
    decide (pher mz ph (oldPosOf cS a) = maxPher mz ph (oldPosOf cS a)) with htie
  set c3 : Colony n L := followStep (followingMask U mz ph cS)
    (tie northPher) (tie eastPher) (tie westPher) (tie southPher) c2 with hc3
  have h3age : c3.age = c2.age := rfl
  have h3ml : c3.max_life = c2.max_life := rfl
  have h3load : c3.is_loaded = c2.is_loaded := rfl
  have h3hist0 : ∀ a, c3.historic_path a 0 = pos_nest := by
    intro a
    show (if _ then _ else c2.historic_path a 0) = _
    rw [if_neg, h2hist0 a]
    rintro ⟨-, hcon⟩
    rw [npi_of_nonneg (by rw [h2age]; have := hpos a; omega)] at hcon
    rw [h2age] at hcon
    have := hpos a
    omega
  set c4 : Colony n L := ageStep U c3 with hc4
  have h4age : ∀ a, c4.age a = if U a then c.age a + 1 else c.age a := by
    intro a
    show (if U a then c3.age a + 1 else c3.age a) = _
    rw [h3age, h2age]
  have h4ml : c4.max_life = c.max_life := by
    show c3.max_life = _
    rw [h3ml, h2ml]
  have h4load : c4.is_loaded = c.is_loaded := by
    show c3.is_loaded = _
    rw [h3load, h2load]
  have h4hist0 : ∀ a, c4.historic_path a 0 = pos_nest := h3hist0
  have h4pos : ∀ a, 0 ≤ c4.age a := by
    intro a
    rw [h4age a]
    have := hpos a
    split <;> omega
  have h4le : ∀ a, c4.age a ≤ (c4.max_life a : Int) := by
    intro a
    rw [h4age a, h4ml]
    have := hlt a
    split <;> omega
  set c5 : Colony n L := deathStep pos_nest c4 with hc5
  have h5age : ∀ a, c5.age a = if dyingMask c4 a then 0 else c4.age a := fun a => rfl
  have h5ml : c5.max_life = c4.max_life := rfl
  have h5load : c5.is_loaded = c4.is_loaded := rfl
  have h5hist0 : ∀ a, c5.historic_path a 0 = pos_nest := by
    intro a
    show (if _ then pos_nest else c4.historic_path a 0) = _
    split
    · rfl
    · exact h4hist0 a
  have h5pos : ∀ a, 0 ≤ c5.age a := by
    intro a
    rw [h5age a]
    have := h4pos a
    split <;> omega
  have h5lt : ∀ a, c5.age a < (c5.max_life a : Int) := by
    intro a
    rw [h5age a, h5ml]
    by_cases hd : dyingMask c4 a = true
    · rw [if_pos hd, h4ml]
      have := hpos a
      have := hlt a
      omega
    · rw [if_neg hd]
      have hne : c4.age a ≠ (c4.max_life a : Int) := by
        intro hcon
        exact hd (by rw [dyingMask, hcon]; exact decide_eq_true rfl)
      have := h4le a
      omega
  have hfoodAge : ∀ a, (U a && decide (histAt c5 a (c5.age a) = pos_food)) = true →
      1 ≤ c5.age a := by
    intro a hcond
    have hcond' := hcond
    simp only [Bool.and_eq_true, decide_eq_true_eq] at hcond'
    obtain ⟨hUa, hatfood⟩ := hcond'
    by_cases hd : dyingMask c4 a = true
    · exfalso
      have hzero : c5.age a = 0 := by rw [h5age a, if_pos hd]
      rw [hzero, histAt, npi_of_nonneg le_rfl, h5hist0 a] at hatfood
      exact hfn hatfood.symm
    · rw [h5age a, if_neg hd, h4age a, if_pos hUa]
      have := hpos a
      omega
  refine ⟨?_, ?_, ?_, ?_⟩
  · intro a
    show c5.historic_path a 0 = pos_nest
    exact h5hist0 a
  · intro a
    show 0 ≤ c5.age a
    exact h5pos a
  · intro a
    show c5.age a < (c5.max_life a : Int)
    exact h5lt a
  · intro a hl
    show 1 ≤ c5.age a
    have hl' : (if (U a && decide (histAt c5 a (c5.age a) = pos_food)) then true
        else c5.is_loaded a) = true := hl
    by_cases hcond : (U a && decide (histAt c5 a (c5.age a) = pos_food)) = true
    · exact hfoodAge a hcond
    · rw [if_neg hcond] at hl'
      -- the ant was loaded all along, so it is not in U and keeps its age
      have hcload : c.is_loaded a = true := by
        rw [h5load, h4load] at hl'
        exact hl'
      have hUa : U a = false := by
        cases hUb : U a with
        | false => rfl
        | true => exact absurd (hU a hUb) (by rw [hcload]; simp)
      have hnd : dyingMask c4 a ≠ true := by
        rw [dyingMask]
        intro hcon
        have := decide_eq_true_eq.mp hcon
        rw [h4age a, if_neg (by rw [hUa]; simp), h4ml] at this
        exact absurd this (ne_of_lt (hlt a))
      rw [h5age a, if_neg hnd, h4age a, if_neg (by rw [hUa]; simp)]
      exact hload a hcload

/-- The colony `advance` returns, with the branch structure exposed. -/
theorem advance_fst {n L : Nat} (mz : Maze) (pos_food pos_nest : Pos)
    (ph : Pheromon) (fuel : Nat) (c : Colony n L) (fc : Int) :
    (advance mz pos_food pos_nest ph fuel c fc).1 =
      (if (∃ a, (!c.is_loaded a) = true) then
        explore (fun a => !c.is_loaded a) mz pos_food pos_nest ph fuel
          (if (∃ a, c.is_loaded a = true) then
            (return_to_nest c (fun a => c.is_loaded a) pos_nest 0).1 else c)
      else (if (∃ a, c.is_loaded a = true) then
        (return_to_nest c (fun a => c.is_loaded a) pos_nest 0).1 else c)) := by
  by_cases hl : ∃ a, c.is_loaded a = true <;>
    by_cases hu : ∃ a, (!c.is_loaded a) = true <;>
      simp [advance, hl, hu]

/-- Method `advance` preserves the tick invariant whenever the food is not at the
nest. -/
theorem advance_inv {n L : Nat} (mz : Maze) (pos_food pos_nest : Pos)
    (ph : Pheromon) (fuel : Nat) (c : Colony n L) (fc : Int)
    (hfn : pos_food ≠ pos_nest) (hInv : Inv pos_nest c) :
    Inv pos_nest (advance mz pos_food pos_nest ph fuel c fc).1 := by
  rw [advance_fst]
  have hInv1 : Inv pos_nest (if (∃ a, c.is_loaded a = true) then
      (return_to_nest c (fun a => c.is_loaded a) pos_nest 0).1 else c) := by
    split
    · exact return_to_nest_inv c pos_nest 0 hInv
    · exact hInv
  have hU1 : ∀ a, (!c.is_loaded a) = true →
      (if (∃ a, c.is_loaded a = true) then
        (return_to_nest c (fun a => c.is_loaded a) pos_nest 0).1 else c).is_loaded a
        = false := by
    intro a ha
    have ha' : c.is_loaded a = false := by simpa using ha
    split
    · show (if rtnInNest c (fun b => c.is_loaded b) pos_nest a then false
        else c.is_loaded a) = false
      split
      · rfl
      · exact ha'
    · exact ha'
  split
  · exact explore_inv _ mz pos_food pos_nest ph fuel _ hfn hInv1 hU1
  · exact hInv1

/-- An unloaded ant whose age hits its maximal life during the tick is reset
by `explore` in that same tick: age 0, history row 0 (its position) the
nest, direction none. -/
theorem explore_reset {n L : Nat} (U : Fin n → Bool) (mz : Maze)
    (pos_food pos_nest : Pos) (ph : Pheromon) (fuel : Nat) (c : Colony n L)
    (a : Fin n) (hUa : U a = true)
    (hreach : c.age a + 1 = (c.max_life a : Int)) :
    (explore U mz pos_food pos_nest ph fuel c).age a = 0 ∧
    (explore U mz pos_food pos_nest ph fuel c).historic_path a 0 = pos_nest ∧
    (explore U mz pos_food pos_nest ph fuel c).directions a = DIR_NONE := by
  set cS : Colony n L := exploreSeeds U c with hcS
  set P : ExpParams n := exploreParams U mz ph cS with hP
  set st0 : LoopSt n L := ⟨cS, fun _ => false⟩ with hst0
  set c2 : Colony n L := (exploreLoop P fuel st0).col with hc2
  have h2age : c2.age = c.age := (exploreLoop_frame P fuel st0).1
  have h2ml : c2.max_life = c.max_life := (exploreLoop_frame P fuel st0).2.1
  set tie : (Maze → Pheromon → Pos → ℚ) → Fin n → Bool := fun pher b =>
    decide (pher mz ph (oldPosOf cS b) = maxPher mz ph (oldPosOf cS b)) with htie
  set c3 : Colony n L := followStep (followingMask U mz ph cS)
    (tie northPher) (tie eastPher) (tie westPher) (tie southPher) c2 with hc3
  set c4 : Colony n L := ageStep U c3 with hc4
  have h4age : c4.age a = c.age a + 1 := by
    show (if U a then c3.age a + 1 else c3.age a) = _
    rw [if_pos hUa]
    show c2.age a + 1 = _
    rw [h2age]
  have h4ml : c4.max_life a = c.max_life a := by
    show c2.max_life a = _
    rw [h2ml]
  have hdying : dyingMask c4 a = true := by
    rw [dyingMask, h4age, h4ml]
    exact decide_eq_true hreach
  set c5 : Colony n L := deathStep pos_nest c4 with hc5
  have h5age : c5.age a = 0 := by
    show (if dyingMask c4 a then 0 else c4.age a) = 0
    rw [if_pos hdying]
  have h5hist : c5.historic_path a 0 = pos_nest := by
    show (if (dyingMask c4 a = true ∧ (0:Int) = 0) then pos_nest
      else c4.historic_path a 0) = pos_nest
    rw [if_pos ⟨hdying, rfl⟩]
  have h5dir : c5.directions a = DIR_NONE := by
    show (if dyingMask c4 a then DIR_NONE else c4.directions a) = DIR_NONE
    rw [if_pos hdying]
  exact ⟨h5age, h5hist, h5dir⟩

/-- C4: starting from an invariant state with the food away from the nest,
after `advance` every agent's age satisfies `0 ≤ age ≤ max_life` (in fact
`age < max_life`, so no unloaded agent persists at the terminal age), any
unloaded agent whose age reaches `max_life` within the tick is reset in that
same tick to age 0 at the nest facing nowhere, and the invariant holds again
(so this is true of every tick). -/
theorem advance_age_bounds {n L : Nat} (mz : Maze) (pos_food pos_nest : Pos)
    (ph : Pheromon) (fuel : Nat) (c : Colony n L) (fc : Int)
    (hfn : pos_food ≠ pos_nest) (hInv : Inv pos_nest c) :
    (∀ a, 0 ≤ (advance mz pos_food pos_nest ph fuel c fc).1.age a ∧
      (advance mz pos_food pos_nest ph fuel c fc).1.age a ≤
        ((advance mz pos_food pos_nest ph fuel c fc).1.max_life a : Int)) ∧
    (∀ a, (advance mz pos_food pos_nest ph fuel c fc).1.is_loaded a = false →
      (advance mz pos_food pos_nest ph fuel c fc).1.age a <
        ((advance mz pos_food pos_nest ph fuel c fc).1.max_life a : Int)) ∧
    (∀ a, c.is_loaded a = false → c.age a + 1 = (c.max_life a : Int) →
      (advance mz pos_food pos_nest ph fuel c fc).1.age a = 0 ∧
      histAt (advance mz pos_food pos_nest ph fuel c fc).1 a
        ((advance mz pos_food pos_nest ph fuel c fc).1.age a) = pos_nest ∧
      (advance mz pos_food pos_nest ph fuel c fc).1.directions a = DIR_NONE) ∧
    Inv pos_nest (advance mz pos_food pos_nest ph fuel c fc).1 := by
  have hInv' := advance_inv mz pos_food pos_nest ph fuel c fc hfn hInv
  obtain ⟨h0', hpos', hlt', -⟩ := hInv'
  refine ⟨fun a => ⟨hpos' a, le_of_lt (hlt' a)⟩, fun a _ => hlt' a, ?_,
    advance_inv mz pos_food pos_nest ph fuel c fc hfn hInv⟩
  intro a hul hreach
  -- the reset clause: walk the explore branch for this unloaded ant
  have hu : ∃ b, (!c.is_loaded b) = true := ⟨a, by rw [hul]; rfl⟩
  set c1 : Colony n L := (if (∃ b, c.is_loaded b = true) then
    (return_to_nest c (fun b => c.is_loaded b) pos_nest 0).1 else c) with hc1
  have h1age : c1.age a = c.age a := by
    rw [hc1]
    split
    · show (if rtnInNest c (fun b => c.is_loaded b) pos_nest a then 0
        else rtnAge1 c (fun b => c.is_loaded b) a) = c.age a
      rw [if_neg (by rw [rtnInNest, hul]; simp), rtnAge1, if_neg (by rw [hul]; simp)]
    · rfl
  have h1ml : c1.max_life a = c.max_life a := by
    rw [hc1]; split <;> rfl
  have hfst : (advance mz pos_food pos_nest ph fuel c fc).1 =
      explore (fun b => !c.is_loaded b) mz pos_food pos_nest ph fuel c1 := by
    rw [advance_fst, if_pos hu]
  have hreset := explore_reset (fun b => !c.is_loaded b) mz pos_food pos_nest ph
    fuel c1 a (by simp [hul]) (by rw [h1age, h1ml]; exact hreach)
  rw [hfst]
  refine ⟨hreset.1, ?_, hreset.2.2⟩
  rw [hreset.1, histAt, npi_of_nonneg le_rfl]
  exact hreset.2.1

/-- Witness for C4 at the concrete delivering colony (`colonyC1`). -/
theorem advance_age_bounds_witness :
    (((2 : Int), (2 : Int)) ≠ ((0 : Int), (0 : Int)) ∧ Inv (0, 0) colonyC1) ∧
    ((∀ a, 0 ≤ (advance mazeShut (2, 2) (0, 0) pherZero 0 colonyC1 5).1.age a ∧
      (advance mazeShut (2, 2) (0, 0) pherZero 0 colonyC1 5).1.age a ≤
        ((advance mazeShut (2, 2) (0, 0) pherZero 0 colonyC1 5).1.max_life a : Int)) ∧
    (∀ a, (advance mazeShut (2, 2) (0, 0) pherZero 0 colonyC1 5).1.is_loaded a = false →
      (advance mazeShut (2, 2) (0, 0) pherZero 0 colonyC1 5).1.age a <
        ((advance mazeShut (2, 2) (0, 0) pherZero 0 colonyC1 5).1.max_life a : Int)) ∧
    (∀ a, colonyC1.is_loaded a = false →
      colonyC1.age a + 1 = (colonyC1.max_life a : Int) →
      (advance mazeShut (2, 2) (0, 0) pherZero 0 colonyC1 5).1.age a = 0 ∧
      histAt (advance mazeShut (2, 2) (0, 0) pherZero 0 colonyC1 5).1 a
        ((advance mazeShut (2, 2) (0, 0) pherZero 0 colonyC1 5).1.age a) = (0, 0) ∧
      (advance mazeShut (2, 2) (0, 0) pherZero 0 colonyC1 5).1.directions a = DIR_NONE) ∧
    Inv (0, 0) (advance mazeShut (2, 2) (0, 0) pherZero 0 colonyC1 5).1) :=
  ⟨⟨by decide, by decide⟩,
    advance_age_bounds mazeShut (2, 2) (0, 0) pherZero 0 colonyC1 5
      (by decide) (by decide)⟩

/-- C9: in an invariant state with the food away from the nest, every loaded
agent has age ≥ 1 when `return_to_nest` starts, so the decremented age used
for the history lookup `historic_path[ant, age]` is non-negative and the
numpy index does not wrap; and `advance` preserves this invariant, so it
holds on every tick. -/
theorem return_lookup_no_wrap {n L : Nat} (mz : Maze) (pos_food pos_nest : Pos)
    (ph : Pheromon) (fuel : Nat) (c : Colony n L) (fc : Int)
    (hfn : pos_food ≠ pos_nest) (hInv : Inv pos_nest c) :
    (∀ a, c.is_loaded a = true →
      1 ≤ c.age a ∧ 0 ≤ rtnAge1 c (fun b => c.is_loaded b) a ∧
        npi L (rtnAge1 c (fun b => c.is_loaded b) a) =
          rtnAge1 c (fun b => c.is_loaded b) a) ∧
    Inv pos_nest (advance mz pos_food pos_nest ph fuel c fc).1 := by
  constructor
  · intro a hl
    have h1 := hInv.2.2.2 a hl
    have h2 : 0 ≤ rtnAge1 c (fun b => c.is_loaded b) a := by
      rw [rtnAge1, if_pos hl]
      omega
    exact ⟨h1, h2, npi_of_nonneg h2⟩
  · exact advance_inv mz pos_food pos_nest ph fuel c fc hfn hInv

/-- Witness for C9 at the concrete delivering colony. -/
theorem return_lookup_no_wrap_witness :
    (((2 : Int), (2 : Int)) ≠ ((0 : Int), (0 : Int)) ∧ Inv (0, 0) colonyC1) ∧
    ((∀ a, colonyC1.is_loaded a = true →
      1 ≤ colonyC1.age a ∧
        0 ≤ rtnAge1 colonyC1 (fun b => colonyC1.is_loaded b) a ∧
        npi 2 (rtnAge1 colonyC1 (fun b => colonyC1.is_loaded b) a) =
          rtnAge1 colonyC1 (fun b => colonyC1.is_loaded b) a) ∧
    Inv (0, 0) (advance mazeShut (2, 2) (0, 0) pherZero 0 colonyC1 5).1) :=
  ⟨⟨by decide, by decide⟩,
    return_lookup_no_wrap mazeShut (2, 2) (0, 0) pherZero 0 colonyC1 5
      (by decide) (by decide)⟩

/-! ## Movement characterization (claim C5) -/

/-- A cell is inside the maze bounds. -/
def inBounds (mz : Maze) (p : Pos) : Prop :=
  0 ≤ p.1 ∧ p.1 < mz.rows ∧ 0 ≤ p.2 ∧ p.2 < mz.cols

instance (mz : Maze) (p : Pos) : Decidable (inBounds mz p) :=
  inferInstanceAs (Decidable (_ ∧ _ ∧ _ ∧ _))

/-- Cell `q` is one step from `p` through a single open exit of `p`. -/
def stepReachable (mz : Maze) (p q : Pos) : Prop :=
  (hasNorthExit mz p = true ∧ q = (p.1 - 1, p.2)) ∨
  (hasEastExit mz p = true ∧ q = (p.1, p.2 + 1)) ∨
  (hasWestExit mz p = true ∧ q = (p.1, p.2 - 1)) ∨
  (hasSouthExit mz p = true ∧ q = (p.1 + 1, p.2))

instance (mz : Maze) (p q : Pos) : Decidable (stepReachable mz p q) :=
  inferInstanceAs (Decidable (_ ∨ _ ∨ _ ∨ _))

/-- Cell `q` differs from `p` by at most one unit per coordinate, each nonzero
component going through an open exit of `p` — the shape of the simultaneous
tied moves of the scent-following branch (possibly diagonal, possibly a
cancelled zero move). -/
def componentMove (mz : Maze) (p q : Pos) : Prop :=
  (q.1 = p.1 ∨ (q.1 = p.1 - 1 ∧ hasNorthExit mz p = true) ∨
    (q.1 = p.1 + 1 ∧ hasSouthExit mz p = true)) ∧
  (q.2 = p.2 ∨ (q.2 = p.2 - 1 ∧ hasWestExit mz p = true) ∨
    (q.2 = p.2 + 1 ∧ hasEastExit mz p = true))

/-- A gated draw that moved went through one open exit. -/
theorem newPosOf_moved_cases (d : Int) (p : Pos) (hn he hw hs : Bool)
    (hmoved : newPosOf d p hn he hw hs ≠ p) :
    (d = DIR_NORTH ∧ hn = true ∧ newPosOf d p hn he hw hs = (p.1 - 1, p.2)) ∨
    (d = DIR_EAST ∧ he = true ∧ newPosOf d p hn he hw hs = (p.1, p.2 + 1)) ∨
    (d = DIR_WEST ∧ hw = true ∧ newPosOf d p hn he hw hs = (p.1, p.2 - 1)) ∨
    (d = DIR_SOUTH ∧ hs = true ∧ newPosOf d p hn he hw hs = (p.1 + 1, p.2)) := by
  by_cases h0 : d = DIR_NORTH
  · cases hn with
    | true => exact Or.inl ⟨h0, rfl, by simp [newPosOf, h0, DIR_NORTH, DIR_EAST, DIR_WEST, DIR_SOUTH]⟩
    | false => exact absurd (by simp [newPosOf, h0, DIR_NORTH, DIR_EAST, DIR_WEST, DIR_SOUTH]) hmoved
  by_cases h1 : d = DIR_EAST
  · cases he with
    | true => exact Or.inr (Or.inl ⟨h1, rfl, by simp [newPosOf, h1, DIR_NORTH, DIR_EAST, DIR_WEST, DIR_SOUTH]⟩)
    | false => exact absurd (by simp [newPosOf, h1, DIR_NORTH, DIR_EAST, DIR_WEST, DIR_SOUTH]) hmoved
  by_cases h2 : d = DIR_WEST
  · cases hw with
    | true => exact Or.inr (Or.inr (Or.inl ⟨h2, rfl, by simp [newPosOf, h2, DIR_NORTH, DIR_EAST, DIR_WEST, DIR_SOUTH]⟩))
    | false => exact absurd (by simp [newPosOf, h2, DIR_NORTH, DIR_EAST, DIR_WEST, DIR_SOUTH]) hmoved
  by_cases h3 : d = DIR_SOUTH
  · cases hs with
    | true => exact Or.inr (Or.inr (Or.inr ⟨h3, rfl, by simp [newPosOf, h3, DIR_NORTH, DIR_EAST, DIR_WEST, DIR_SOUTH]⟩))
    | false => exact absurd (by simp [newPosOf, h3, DIR_NORTH, DIR_EAST, DIR_WEST, DIR_SOUTH]) hmoved
  · exact absurd (by simp [newPosOf, h0, h1, h2, h3]) hmoved

/-- A single-exit step is in particular a component move. -/
theorem stepReachable_componentMove {mz : Maze} {p q : Pos}
    (h : stepReachable mz p q) : componentMove mz p q := by
  rcases h with ⟨hx, rfl⟩ | ⟨hx, rfl⟩ | ⟨hx, rfl⟩ | ⟨hx, rfl⟩
  · exact ⟨Or.inr (Or.inl ⟨rfl, hx⟩), Or.inl rfl⟩
  · exact ⟨Or.inl rfl, Or.inr (Or.inr ⟨rfl, hx⟩)⟩
  · exact ⟨Or.inl rfl, Or.inr (Or.inl ⟨rfl, hx⟩)⟩
  · exact ⟨Or.inr (Or.inr ⟨rfl, hx⟩), Or.inl rfl⟩

/-- An exploring ant is never in the scent-following set. -/
theorem exploringMask_not_following {n L : Nat} (U : Fin n → Bool) (mz : Maze)
    (ph : Pheromon) (c1 : Colony n L) (a : Fin n)
    (hE : exploringMask U mz ph c1 a = true) : followingMask U mz ph c1 a = false := by
  simp only [exploringMask, Bool.and_eq_true, Bool.or_eq_true, decide_eq_true_eq] at hE
  simp only [followingMask, Bool.and_eq_false_iff, Bool.or_eq_false_iff,
    decide_eq_false_iff_not]
  rcases hE.2 with h | h
  · exact Or.inr (Or.inl (not_lt.mpr h))
  · exact Or.inr (Or.inr (by rw [h]; exact lt_irrefl 0))

/-- With a non-negative scent reading, every unloaded ant is in exactly one
of the two branches; in particular in one of them. -/
theorem unloaded_explores_or_follows {n L : Nat} (U : Fin n → Bool) (mz : Maze)
    (ph : Pheromon) (c1 : Colony n L) (a : Fin n) (hUa : U a = true)
    (hnn : 0 ≤ maxPher mz ph (oldPosOf c1 a)) :
    exploringMask U mz ph c1 a = true ∨ followingMask U mz ph c1 a = true := by
  by_cases hc : choicesOf c1 a ≤ exploration_coefs
  · exact Or.inl (by simp [exploringMask, hUa, hc])
  by_cases hm : maxPher mz ph (oldPosOf c1 a) = 0
  · exact Or.inl (by simp [exploringMask, hUa, hm])
  · refine Or.inr ?_
    simp only [followingMask, hUa, Bool.true_and, Bool.and_eq_true, decide_eq_true_eq]
    exact ⟨not_le.mp hc, lt_of_le_of_ne hnn (Ne.symm hm)⟩

/-- A direction tying for a positive maximum has an open exit (closed
directions contribute a gated zero). -/
theorem tie_north_exit (mz : Maze) (ph : Pheromon) (p : Pos)
    (hpos : 0 < maxPher mz ph p) (ht : northPher mz ph p = maxPher mz ph p) :
    hasNorthExit mz p = true := by
  cases hx : hasNorthExit mz p with
  | true => rfl
  | false =>
    exfalso
    rw [northPher, hx] at ht
    simp only [Bool.false_eq_true, if_false] at ht
    rw [← ht] at hpos
    exact lt_irrefl _ hpos

/-- See `tie_north_exit`. -/
theorem tie_east_exit (mz : Maze) (ph : Pheromon) (p : Pos)
    (hpos : 0 < maxPher mz ph p) (ht : eastPher mz ph p = maxPher mz ph p) :
    hasEastExit mz p = true := by
  cases hx : hasEastExit mz p with
  | true => rfl
  | false =>
    exfalso
    rw [eastPher, hx] at ht
    simp only [Bool.false_eq_true, if_false] at ht
    rw [← ht] at hpos
    exact lt_irrefl _ hpos

/-- See `tie_north_exit`. -/
theorem tie_west_exit (mz : Maze) (ph : Pheromon) (p : Pos)
    (hpos : 0 < maxPher mz ph p) (ht : westPher mz ph p = maxPher mz ph p) :
    hasWestExit mz p = true := by
  cases hx : hasWestExit mz p with
  | true => rfl
  | false =>
    exfalso
    rw [westPher, hx] at ht
    simp only [Bool.false_eq_true, if_false] at ht
    rw [← ht] at hpos
    exact lt_irrefl _ hpos

/-- See `tie_north_exit`. -/
theorem tie_south_exit (mz : Maze) (ph : Pheromon) (p : Pos)
    (hpos : 0 < maxPher mz ph p) (ht : southPher mz ph p = maxPher mz ph p) :
    hasSouthExit mz p = true := by
  cases hx : hasSouthExit mz p with
  | true => rfl
  | false =>
    exfalso
    rw [southPher, hx] at ht
    simp only [Bool.false_eq_true, if_false] at ht
    rw [← ht] at hpos
    exact lt_irrefl _ hpos

/-- C5 (amended): for every unloaded agent, the position after `explore`
(its `history[age]`) is inside the maze bounds, and is either the nest (when
the agent hit its maximal life this tick and was reset) or differs from its
pre-move position by at most one unit per coordinate, each unit going
through an open exit: a single-exit step in the random-exploration branch,
and in the scent-following branch the simultaneous tied deltas, which for
multi-way ties can be diagonal (or cancel), not a single-exit step. -/
theorem explore_position_characterization {n L : Nat} (U : Fin n → Bool)
    (mz : Maze) (pos_food pos_nest : Pos) (ph : Pheromon) (fuel : Nat)
    (c : Colony n L) (a : Fin n) (hUa : U a = true) (hage : ∀ b, 0 ≤ c.age b)
    (hdone : loopDone (exploreParams U mz ph (exploreSeeds U c))
      (exploreLoop (exploreParams U mz ph (exploreSeeds U c)) fuel
        ⟨exploreSeeds U c, fun _ => false⟩))
    (hnn : 0 ≤ maxPher mz ph (oldPosOf (exploreSeeds U c) a))
    (hb : inBounds mz (oldPosOf (exploreSeeds U c) a))
    (hbN : hasNorthExit mz (oldPosOf (exploreSeeds U c) a) = true →
      inBounds mz ((oldPosOf (exploreSeeds U c) a).1 - 1, (oldPosOf (exploreSeeds U c) a).2))
    (hbE : hasEastExit mz (oldPosOf (exploreSeeds U c) a) = true →
      inBounds mz ((oldPosOf (exploreSeeds U c) a).1, (oldPosOf (exploreSeeds U c) a).2 + 1))
    (hbW : hasWestExit mz (oldPosOf (exploreSeeds U c) a) = true →
      inBounds mz ((oldPosOf (exploreSeeds U c) a).1, (oldPosOf (exploreSeeds U c) a).2 - 1))
    (hbS : hasSouthExit mz (oldPosOf (exploreSeeds U c) a) = true →
      inBounds mz ((oldPosOf (exploreSeeds U c) a).1 + 1, (oldPosOf (exploreSeeds U c) a).2))
    (hnest : inBounds mz pos_nest) :
    inBounds mz (oldPosOf (explore U mz pos_food pos_nest ph fuel c) a) ∧
    ((c.age a + 1 = (c.max_life a : Int) ∧
        oldPosOf (explore U mz pos_food pos_nest ph fuel c) a = pos_nest) ∨
      componentMove mz (oldPosOf (exploreSeeds U c) a)
        (oldPosOf (explore U mz pos_food pos_nest ph fuel c) a)) ∧
    (exploringMask U mz ph (exploreSeeds U c) a = true →
      c.age a + 1 ≠ (c.max_life a : Int) →
      stepReachable mz (oldPosOf (exploreSeeds U c) a)
        (oldPosOf (explore U mz pos_food pos_nest ph fuel c) a)) := by
  set cS : Colony n L := exploreSeeds U c with hcS
  set P : ExpParams n := exploreParams U mz ph cS with hP
  set st0 : LoopSt n L := ⟨cS, fun _ => false⟩ with hst0
  set c2 : Colony n L := (exploreLoop P fuel st0).col with hc2
  set tie : (Maze → Pheromon → Pos → ℚ) → Fin n → Bool := fun pher b =>
    decide (pher mz ph (oldPosOf cS b) = maxPher mz ph (oldPosOf cS b)) with htie
  set c3 : Colony n L := followStep (followingMask U mz ph cS)
    (tie northPher) (tie eastPher) (tie westPher) (tie southPher) c2 with hc3
  set c4 : Colony n L := ageStep U c3 with hc4
  set c5 : Colony n L := deathStep pos_nest c4 with hc5
  have hEeq : explore U mz pos_food pos_nest ph fuel c = foodStep U pos_food c5 := rfl
  set p0 : Pos := oldPosOf cS a with hp0
  by_cases hdie : c.age a + 1 = (c.max_life a : Int)
  · -- the agent hits its maximal life this tick and is reset to the nest
    obtain ⟨hrage, hrhist, -⟩ :=
      explore_reset U mz pos_food pos_nest ph fuel c a hUa hdie
    have hpos1 : oldPosOf (explore U mz pos_food pos_nest ph fuel c) a = pos_nest := by
      rw [oldPosOf]
      rw [show (explore U mz pos_food pos_nest ph fuel c).age a = 0 from hrage]
      rw [histAt, npi_of_nonneg le_rfl]
      exact hrhist
    refine ⟨by rw [hpos1]; exact hnest, Or.inl ⟨hdie, hpos1⟩, fun _ hne => absurd hdie hne⟩
  · -- ordinary move: compute the post-tick position
    have h2age : c2.age = c.age := (exploreLoop_frame P fuel st0).1
    have h2agea : c2.age a = c.age a := congrFun h2age a
    have h4agea : c4.age a = c.age a + 1 := by
      show (if U a then c3.age a + 1 else c3.age a) = _
      rw [if_pos hUa]
      show c2.age a + 1 = _
      rw [h2agea]
    have h4mla : c4.max_life a = c.max_life a := by
      show c2.max_life a = _
      rw [(exploreLoop_frame P fuel st0).2.1]
      rfl
    have hnd : dyingMask c4 a ≠ true := by
      rw [dyingMask, h4agea, h4mla]
      simpa using hdie
    have hEagea : (explore U mz pos_food pos_nest ph fuel c).age a = c.age a + 1 := by
      rw [hEeq]
      show c5.age a = _
      show (if dyingMask c4 a then 0 else c4.age a) = _
      rw [if_neg hnd, h4agea]
    have hidx : npi L (c.age a + 1) = c.age a + 1 :=
      npi_of_nonneg (by have := hage a; omega)
    have hp1c3 : oldPosOf (explore U mz pos_food pos_nest ph fuel c) a =
        c3.historic_path a (c.age a + 1) := by
      rw [oldPosOf, hEagea, histAt, hidx, hEeq]
      show c5.historic_path a (c.age a + 1) = _
      show (if (dyingMask c4 a = true ∧ c.age a + 1 = 0) then pos_nest
        else c4.historic_path a (c.age a + 1)) = _
      rw [if_neg (by rintro ⟨hcon, -⟩; exact hnd hcon)]
      rfl
    rcases unloaded_explores_or_follows U mz ph cS a hUa hnn with hEa | hFa
    · -- random-exploration branch: a single accepted move through an exit
      have hFaOff : followingMask U mz ph cS a = false :=
        exploringMask_not_following U mz ph cS a hEa
      have hc3hist : c3.historic_path a (c.age a + 1) =
          c2.historic_path a (c.age a + 1) := by
        show (if _ then _ else c2.historic_path a (c.age a + 1)) = _
        rw [if_neg (by rintro ⟨hcon, -⟩; rw [hFaOff] at hcon; exact Bool.false_ne_true hcon)]
      have hgood := exploreLoop_good P cS.age cS.directions (oldPosOf cS) fuel st0
        hage (loopGood_entry U mz ph cS)
      have hvalid : (exploreLoop P fuel st0).valid a = true := hdone a hEa
      obtain ⟨hacc, hwrite⟩ := hgood.2.2.2 a hEa hvalid
      have hwrite' : c2.historic_path a (c.age a + 1) =
          newPosOf (c2.directions a) p0 (P.hn a) (P.he a) (P.hw a) (P.hs a) := by
        rw [← hidx]
        exact hwrite
      have hmoved : newPosOf (c2.directions a) p0 (P.hn a) (P.he a) (P.hw a) (P.hs a) ≠ p0 :=
        hacc.1
      have hp1 : oldPosOf (explore U mz pos_food pos_nest ph fuel c) a =
          newPosOf (c2.directions a) p0 (P.hn a) (P.he a) (P.hw a) (P.hs a) := by
        rw [hp1c3, hc3hist, hwrite']
      have hstep : stepReachable mz p0
          (oldPosOf (explore U mz pos_food pos_nest ph fuel c) a) := by
        rcases newPosOf_moved_cases (c2.directions a) p0 (P.hn a) (P.he a) (P.hw a)
          (P.hs a) hmoved with ⟨-, hx, he⟩ | ⟨-, hx, he⟩ | ⟨-, hx, he⟩ | ⟨-, hx, he⟩
        · exact Or.inl ⟨hx, by rw [hp1, he]⟩
        · exact Or.inr (Or.inl ⟨hx, by rw [hp1, he]⟩)
        · exact Or.inr (Or.inr (Or.inl ⟨hx, by rw [hp1, he]⟩))
        · exact Or.inr (Or.inr (Or.inr ⟨hx, by rw [hp1, he]⟩))
      refine ⟨?_, Or.inr (stepReachable_componentMove hstep), fun _ _ => hstep⟩
      rcases hstep with ⟨hx, hq⟩ | ⟨hx, hq⟩ | ⟨hx, hq⟩ | ⟨hx, hq⟩ <;> rw [hq]
      · exact hbN hx
      · exact hbE hx
      · exact hbW hx
      · exact hbS hx
    · -- scent-following branch: simultaneous tied deltas
      have hEaOff : exploringMask U mz ph cS a = false :=
        followingMask_not_exploring U mz ph cS a hFa
      have hmaxpos : 0 < maxPher mz ph p0 := by
        have := hFa
        simp only [followingMask, Bool.and_eq_true, decide_eq_true_eq] at this
        exact this.2.2
      have hbase : histAt c2 a (c2.age a) = p0 := by
        have hgood := exploreLoop_good P cS.age cS.directions (oldPosOf cS) fuel st0
          hage (loopGood_entry U mz ph cS)
        rw [show c2.age = cS.age from (exploreLoop_frame P fuel st0).1]
        exact hgood.2.2.1 a
      have hc3hist : c3.historic_path a (c.age a + 1) =
          ( (histAt c2 a (c2.age a)).1 - (if tie northPher a then 1 else 0) +
              (if tie southPher a then 1 else 0),
            (histAt c2 a (c2.age a)).2 + (if tie eastPher a then 1 else 0) -
              (if tie westPher a then 1 else 0) ) := by
        show (if (followingMask U mz ph cS a = true ∧
          c.age a + 1 = npi L (c2.age a + 1)) then _ else _) = _
        rw [if_pos ⟨hFa, by rw [h2agea, hidx]⟩]
      have hp1 : oldPosOf (explore U mz pos_food pos_nest ph fuel c) a =
          ( p0.1 - (if tie northPher a then 1 else 0) +
              (if tie southPher a then 1 else 0),
            p0.2 + (if tie eastPher a then 1 else 0) -
              (if tie westPher a then 1 else 0) ) := by
        rw [hp1c3, hc3hist, hbase]
      have htN : tie northPher a = true → hasNorthExit mz p0 = true := fun ht =>
        tie_north_exit mz ph p0 hmaxpos (by rw [htie] at ht; exact of_decide_eq_true ht)
      have htE : tie eastPher a = true → hasEastExit mz p0 = true := fun ht =>
        tie_east_exit mz ph p0 hmaxpos (by rw [htie] at ht; exact of_decide_eq_true ht)
      have htW : tie westPher a = true → hasWestExit mz p0 = true := fun ht =>
        tie_west_exit mz ph p0 hmaxpos (by rw [htie] at ht; exact of_decide_eq_true ht)
      have htS : tie southPher a = true → hasSouthExit mz p0 = true := fun ht =>
        tie_south_exit mz ph p0 hmaxpos (by rw [htie] at ht; exact of_decide_eq_true ht)
      have hrow : (oldPosOf (explore U mz pos_food pos_nest ph fuel c) a).1 = p0.1 ∨
          ((oldPosOf (explore U mz pos_food pos_nest ph fuel c) a).1 = p0.1 - 1 ∧
            hasNorthExit mz p0 = true) ∨
          ((oldPosOf (explore U mz pos_food pos_nest ph fuel c) a).1 = p0.1 + 1 ∧
            hasSouthExit mz p0 = true) := by
        rw [hp1]
        cases hn : tie northPher a <;> cases hs : tie southPher a
        · exact Or.inl (by simp)
        · exact Or.inr (Or.inr ⟨by simp, htS hs⟩)
        · exact Or.inr (Or.inl ⟨by simp, htN hn⟩)
        · exact Or.inl (by simp)
      have hcol : (oldPosOf (explore U mz pos_food pos_nest ph fuel c) a).2 = p0.2 ∨
          ((oldPosOf (explore U mz pos_food pos_nest ph fuel c) a).2 = p0.2 - 1 ∧
            hasWestExit mz p0 = true) ∨
          ((oldPosOf (explore U mz pos_food pos_nest ph fuel c) a).2 = p0.2 + 1 ∧
            hasEastExit mz p0 = true) := by
        rw [hp1]
        cases he : tie eastPher a <;> cases hw : tie westPher a
        · exact Or.inl (by simp)
        · exact Or.inr (Or.inl ⟨by simp, htW hw⟩)
        · exact Or.inr (Or.inr ⟨by simp, htE he⟩)
        · exact Or.inl (by simp)
      have hrowB : 0 ≤ (oldPosOf (explore U mz pos_food pos_nest ph fuel c) a).1 ∧
          (oldPosOf (explore U mz pos_food pos_nest ph fuel c) a).1 < mz.rows := by
        rcases hrow with h | ⟨h, hx⟩ | ⟨h, hx⟩
        · rw [h]; exact ⟨hb.1, hb.2.1⟩
        · rw [h]; exact ⟨(hbN hx).1, (hbN hx).2.1⟩
        · rw [h]; exact ⟨(hbS hx).1, (hbS hx).2.1⟩
      have hcolB : 0 ≤ (oldPosOf (explore U mz pos_food pos_nest ph fuel c) a).2 ∧
          (oldPosOf (explore U mz pos_food pos_nest ph fuel c) a).2 < mz.cols := by
        rcases hcol with h | ⟨h, hx⟩ | ⟨h, hx⟩
        · rw [h]; exact ⟨hb.2.2.1, hb.2.2.2⟩
        · rw [h]; exact ⟨(hbW hx).2.2.1, (hbW hx).2.2.2⟩
        · rw [h]; exact ⟨(hbE hx).2.2.1, (hbE hx).2.2.2⟩
      refine ⟨⟨hrowB.1, hrowB.2, hcolB.1, hcolB.2⟩,
        Or.inr ⟨?_, ?_⟩, fun hEa _ => absurd hEa (by rw [hEaOff]; simp)⟩
      · rcases hrow with h | ⟨h, hx⟩ | ⟨h, hx⟩
        · exact Or.inl h
        · exact Or.inr (Or.inl ⟨h, hx⟩)
        · exact Or.inr (Or.inr ⟨h, hx⟩)
      · rcases hcol with h | ⟨h, hx⟩ | ⟨h, hx⟩
        · exact Or.inl h
        · exact Or.inr (Or.inl ⟨h, hx⟩)
        · exact Or.inr (Or.inr ⟨h, hx⟩)

/-- One unloaded ant at `(1,0)` of the open 2×2 maze, scent 5 on both its
north and east neighbors: a two-way tie. -/
def colonyC5 : Colony 1 3 where
  seeds := fun _ => 1
  is_loaded := fun _ => false
  max_life := fun _ => 3
  age := fun _ => 0
  historic_path := fun _ _ => (1, 0)
  directions := fun _ => DIR_NONE

/-- Scent 5 at the ghost cells read as the north `(1,1)` and east `(2,2)`
neighbors of `(1,0)`. -/
def pherC5 : Pheromon :=
  { pheromon := fun i j =>
      if (i, j) = ((1 : Int), (1 : Int)) then 5
      else if (i, j) = ((2 : Int), (2 : Int)) then 5 else 0 }

/-- C5, refuted as stated: with north and east tied for the maximal scent,
the following ant moves diagonally from `(1,0)` to `(0,1)`, which is neither
equal to its previous cell nor reachable from it through a single open
exit. -/
theorem follow_tie_moves_diagonally :
    oldPosOf (exploreSeeds (fun a => !colonyC5.is_loaded a) colonyC5) 0 = (1, 0) ∧
    oldPosOf (explore (fun a => !colonyC5.is_loaded a) mazeOpen2 (5, 5) (0, 0)
      pherC5 1 colonyC5) 0 = (0, 1) ∧
    ¬ stepReachable mazeOpen2 (1, 0) (0, 1) ∧
    ((0, 1) : Pos) ≠ (1, 0) := by
  refine ⟨by decide, by decide!, by decide, by decide⟩

/-- Witness for the amended C5 at the diagonal-tie instance: all bounds and
exit hypotheses hold and the characterization applies. -/
theorem explore_position_characterization_witness :
    ((fun a => !colonyC5.is_loaded a) (0 : Fin 1) = true ∧
      (∀ b : Fin 1, 0 ≤ colonyC5.age b) ∧
      loopDone
        (exploreParams (fun a => !colonyC5.is_loaded a) mazeOpen2 pherC5
          (exploreSeeds (fun a => !colonyC5.is_loaded a) colonyC5))
        (exploreLoop
          (exploreParams (fun a => !colonyC5.is_loaded a) mazeOpen2 pherC5
            (exploreSeeds (fun a => !colonyC5.is_loaded a) colonyC5)) 1
          ⟨exploreSeeds (fun a => !colonyC5.is_loaded a) colonyC5, fun _ => false⟩) ∧
      0 ≤ maxPher mazeOpen2 pherC5
        (oldPosOf (exploreSeeds (fun a => !colonyC5.is_loaded a) colonyC5) 0) ∧
      inBounds mazeOpen2
        (oldPosOf (exploreSeeds (fun a => !colonyC5.is_loaded a) colonyC5) 0)) ∧
    (inBounds mazeOpen2
      (oldPosOf (explore (fun a => !colonyC5.is_loaded a) mazeOpen2 (5, 5) (0, 0)
        pherC5 1 colonyC5) 0) ∧
    ((colonyC5.age 0 + 1 = (colonyC5.max_life 0 : Int) ∧
        oldPosOf (explore (fun a => !colonyC5.is_loaded a) mazeOpen2 (5, 5) (0, 0)
          pherC5 1 colonyC5) 0 = (0, 0)) ∨
      componentMove mazeOpen2
        (oldPosOf (exploreSeeds (fun a => !colonyC5.is_loaded a) colonyC5) 0)
        (oldPosOf (explore (fun a => !colonyC5.is_loaded a) mazeOpen2 (5, 5) (0, 0)
          pherC5 1 colonyC5) 0)) ∧
    (exploringMask (fun a => !colonyC5.is_loaded a) mazeOpen2 pherC5
        (exploreSeeds (fun a => !colonyC5.is_loaded a) colonyC5) 0 = true →
      colonyC5.age 0 + 1 ≠ (colonyC5.max_life 0 : Int) →
      stepReachable mazeOpen2
        (oldPosOf (exploreSeeds (fun a => !colonyC5.is_loaded a) colonyC5) 0)
        (oldPosOf (explore (fun a => !colonyC5.is_loaded a) mazeOpen2 (5, 5) (0, 0)
          pherC5 1 colonyC5) 0))) :=
  ⟨⟨by decide, by decide, by decide!, by decide!, by decide⟩,
    explore_position_characterization (fun a => !colonyC5.is_loaded a) mazeOpen2
      (5, 5) (0, 0) pherC5 1 colonyC5 0 (by decide) (by decide) (by decide!)
      (by decide!) (by decide) (by decide) (by decide) (by decide) (by decide)
      (by decide)⟩

/-! ## Termination of the retry loop (claim C7)

The loop terminates because each stuck ant keeps redrawing `seed % 4` from
the recurrence `seed ↦ 16807·seed mod 2147483647`.  The modulus is the
Mersenne prime `2^31 - 1` and `16807 = 7^5` is a primitive root mod it, so
from any nonzero seed the orbit reaches every nonzero residue, in particular
one whose value mod 4 is a valid direction. -/

/-- Fuel-indexed fast modular exponentiation mod 2147483647 (kernel-friendly). -/
def powMod : Nat → Nat → Nat → Nat
  | 0, _, _ => 1 % 2147483647
  | f + 1, b, e =>
    if e = 0 then 1 % 2147483647
    else
      if e % 2 = 0 then powMod f b (e / 2) * powMod f b (e / 2) % 2147483647
      else powMod f b (e / 2) * powMod f b (e / 2) % 2147483647 * b % 2147483647

/-- Function `powMod` computes `b^e mod 2147483647` when given enough fuel. -/
theorem powMod_spec : ∀ (f b e : Nat), e < 2 ^ f →
    powMod f b e = b ^ e % 2147483647 := by
  intro f
  induction f with
  | zero =>
    intro b e he
    have h0 : e = 0 := by simpa using Nat.lt_one_iff.mp (by simpa using he)
    simp [powMod, h0]
  | succ g ih =>
    intro b e he
    by_cases h0 : e = 0
    · simp [powMod, h0]
    · have he2 : e / 2 < 2 ^ g := by
        rw [pow_succ] at he
        omega
      have hrec := ih b (e / 2) he2
      show (if e = 0 then _ else _) = _
      rw [if_neg h0]
      by_cases hp : e % 2 = 0
      · rw [if_pos hp, hrec]
        have hsplit : b ^ e = b ^ (e / 2) * b ^ (e / 2) := by
          rw [← pow_add]
          congr 1
          omega
        rw [hsplit]
        exact (Nat.mod_modEq _ _).mul (Nat.mod_modEq _ _)
      · rw [if_neg hp, hrec]
        have hsplit : b ^ e = b ^ (e / 2) * b ^ (e / 2) * b := by
          have he' : e / 2 + e / 2 + 1 = e := by omega
          calc b ^ e = b ^ (e / 2 + e / 2 + 1) := by rw [he']
            _ = b ^ (e / 2) * b ^ (e / 2) * b := by rw [pow_add, pow_add, pow_one]
        rw [Nat.mod_mul_mod, hsplit]
        exact (((Nat.mod_modEq _ _).mul (Nat.mod_modEq _ _)).mul (Nat.ModEq.refl b))

/-- The Mersenne number `2^31 - 1` is prime (Lucas-Lehmer). -/
theorem prime_2147483647 : Nat.Prime 2147483647 := by
  have h : (mersenne 31).Prime :=
    lucas_lehmer_sufficiency 31 (by norm_num) (by norm_num)
  have hm : mersenne 31 = 2147483647 := by norm_num [mersenne]
  rwa [hm] at h

instance : Fact (Nat.Prime 2147483647) := ⟨prime_2147483647⟩

/-- The multiplier 16807 as a unit of `ZMod 2147483647`. -/
def gU : (ZMod 2147483647)ˣ := ZMod.unitOfCoprime 16807 (by decide)

/-- A power of `gU` whose `powMod` value is not 1 is not 1. -/
theorem gU_pow_ne_one (e : Nat) (he : e < 2 ^ 64)
    (hcomp : powMod 64 16807 e ≠ 1) : gU ^ e ≠ 1 := by
  intro hcon
  have h1 : ((16807 : ℕ) : ZMod 2147483647) ^ e = 1 := by
    have := congrArg (Units.val) hcon
    rw [Units.val_pow_eq_pow_val] at this
    rw [show ((gU : (ZMod 2147483647)ˣ) : ZMod 2147483647) =
      ((16807 : ℕ) : ZMod 2147483647) from ZMod.coe_unitOfCoprime _ _] at this
    simpa using this
  have h2 : ((16807 ^ e : ℕ) : ZMod 2147483647) = ((1 : ℕ) : ZMod 2147483647) := by
    push_cast
    simpa using h1
  have h3 : 16807 ^ e % 2147483647 = 1 % 2147483647 :=
    (ZMod.natCast_eq_natCast_iff' _ _ _).mp h2
  apply hcomp
  rw [powMod_spec 64 16807 e he, h3]

/-- The multiplier `16807` has full order `2147483646` in the units of `ZMod 2147483647`:
it is a primitive root mod the Mersenne prime. -/
theorem orderOf_gU : orderOf gU = 2147483646 := by
  apply orderOf_eq_of_pow_and_pow_div_prime (by norm_num)
  · have hcard : Fintype.card (ZMod 2147483647)ˣ = 2147483646 :=
      ZMod.card_units 2147483647
    rw [← hcard]
    exact pow_card_eq_one
  · intro q hq hdvd
    have hqcases : q = 2 ∨ q = 3 ∨ q = 7 ∨ q = 11 ∨ q = 31 ∨ q = 151 ∨ q = 331 := by
      have h1 : (2147483646 : ℕ) = 2 * 1073741823 := by norm_num
      rw [h1] at hdvd
      rcases (Nat.Prime.dvd_mul hq).mp hdvd with h | h
      · exact Or.inl ((Nat.prime_dvd_prime_iff_eq hq Nat.prime_two).mp h)
      have h2 : (1073741823 : ℕ) = 3 * 357913941 := by norm_num
      rw [h2] at h
      rcases (Nat.Prime.dvd_mul hq).mp h with h | h
      · exact Or.inr (Or.inl ((Nat.prime_dvd_prime_iff_eq hq Nat.prime_three).mp h))
      have h3 : (357913941 : ℕ) = 3 * 119304647 := by norm_num
      rw [h3] at h
      rcases (Nat.Prime.dvd_mul hq).mp h with h | h
      · exact Or.inr (Or.inl ((Nat.prime_dvd_prime_iff_eq hq Nat.prime_three).mp h))
      have h4 : (119304647 : ℕ) = 7 * 17043521 := by norm_num
      rw [h4] at h
      rcases (Nat.Prime.dvd_mul hq).mp h with h | h
      · exact Or.inr (Or.inr (Or.inl
          ((Nat.prime_dvd_prime_iff_eq hq (by norm_num)).mp h)))
      have h5 : (17043521 : ℕ) = 11 * 1549411 := by norm_num
      rw [h5] at h
      rcases (Nat.Prime.dvd_mul hq).mp h with h | h
      · exact Or.inr (Or.inr (Or.inr (Or.inl
          ((Nat.prime_dvd_prime_iff_eq hq (by norm_num)).mp h))))
      have h6 : (1549411 : ℕ) = 31 * 49981 := by norm_num
      rw [h6] at h
      rcases (Nat.Prime.dvd_mul hq).mp h with h | h
      · exact Or.inr (Or.inr (Or.inr (Or.inr (Or.inl
          ((Nat.prime_dvd_prime_iff_eq hq (by norm_num)).mp h)))))
      have h7 : (49981 : ℕ) = 151 * 331 := by norm_num
      rw [h7] at h
      rcases (Nat.Prime.dvd_mul hq).mp h with h | h
      · exact Or.inr (Or.inr (Or.inr (Or.inr (Or.inr (Or.inl
          ((Nat.prime_dvd_prime_iff_eq hq (by norm_num)).mp h))))))
      · exact Or.inr (Or.inr (Or.inr (Or.inr (Or.inr (Or.inr
          ((Nat.prime_dvd_prime_iff_eq hq (by norm_num)).mp h))))))
    rcases hqcases with rfl | rfl | rfl | rfl | rfl | rfl | rfl
    · exact gU_pow_ne_one 1073741823 (by norm_num) (by decide)
    · exact gU_pow_ne_one 715827882 (by norm_num) (by decide)
    · exact gU_pow_ne_one 306783378 (by norm_num) (by decide)
    · exact gU_pow_ne_one 195225786 (by norm_num) (by decide)
    · exact gU_pow_ne_one 69273666 (by norm_num) (by decide)
    · exact gU_pow_ne_one 14221746 (by norm_num) (by decide)
    · exact gU_pow_ne_one 6487866 (by norm_num) (by decide)

/-- Every unit of `ZMod 2147483647` is a power of 16807. -/
theorem gU_generates (u : (ZMod 2147483647)ˣ) : ∃ k : ℕ, gU ^ k = u := by
  have htop : Subgroup.zpowers gU = ⊤ := by
    apply Subgroup.eq_top_of_card_eq
    rw [Nat.card_zpowers, orderOf_gU, Nat.card_eq_fintype_card,
      ZMod.card_units 2147483647]
  have hmem : u ∈ Subgroup.zpowers gU := by
    rw [htop]
    exact Subgroup.mem_top u
  have hmem' : u ∈ Submonoid.powers gU := mem_powers_iff_mem_zpowers.mpr hmem
  exact (Submonoid.mem_powers_iff u gU).mp hmem'

/-- Closed form of the iterated recurrence (one or more steps). -/
theorem seedIter_formula (s : Nat) : ∀ k, 1 ≤ k →
    seedIter k s = 16807 ^ k * s % 2147483647 := by
  intro k
  induction k with
  | zero => omega
  | succ m ih =>
    intro _hk
    by_cases hm : 1 ≤ m
    · show seedNext (seedIter m s) = _
      rw [ih hm, seedNext, Nat.mul_mod_mod]
      congr 1
      rw [pow_succ]
      ring
    · have hm0 : m = 0 := by omega
      subst hm0
      show seedNext s = _
      rw [seedNext, pow_one]

/-- From any seed that is nonzero mod 2147483647, the recurrence reaches any
prescribed nonzero residue below the modulus, after at least one step. -/
theorem seedIter_hits_target (s t : Nat) (hs : s % 2147483647 ≠ 0)
    (ht0 : t ≠ 0) (htp : t < 2147483647) : ∃ k, 1 ≤ k ∧ seedIter k s = t := by
  have hsz : ((s : ℕ) : ZMod 2147483647) ≠ 0 := by
    rw [Ne, ZMod.natCast_zmod_eq_zero_iff_dvd]
    intro hdvd
    exact hs (Nat.mod_eq_zero_of_dvd hdvd)
  have htz : ((t : ℕ) : ZMod 2147483647) ≠ 0 := by
    rw [Ne, ZMod.natCast_zmod_eq_zero_iff_dvd]
    intro hdvd
    have := Nat.le_of_dvd (Nat.pos_of_ne_zero ht0) hdvd
    omega
  obtain ⟨us, hus⟩ := isUnit_iff_ne_zero.mpr hsz
  obtain ⟨ut, hut⟩ := isUnit_iff_ne_zero.mpr htz
  obtain ⟨k, hk⟩ := gU_generates (ut * us⁻¹)
  refine ⟨k + 2147483646, by omega, ?_⟩
  have hgk : gU ^ (k + 2147483646) = ut * us⁻¹ := by
    rw [pow_add, ← orderOf_gU, pow_orderOf_eq_one, mul_one, hk]
  have hmul : gU ^ (k + 2147483646) * us = ut := by
    rw [hgk, inv_mul_cancel_right]
  have hval : ((16807 : ℕ) : ZMod 2147483647) ^ (k + 2147483646) *
      ((s : ℕ) : ZMod 2147483647) = ((t : ℕ) : ZMod 2147483647) := by
    have hv := congrArg Units.val hmul
    rw [Units.val_mul, Units.val_pow_eq_pow_val] at hv
    rw [show ((gU : (ZMod 2147483647)ˣ) : ZMod 2147483647) =
      ((16807 : ℕ) : ZMod 2147483647) from ZMod.coe_unitOfCoprime _ _] at hv
    rw [hus, hut] at hv
    exact hv
  have hnat : (16807 ^ (k + 2147483646) * s) % 2147483647 = t % 2147483647 := by
    have hcast : ((16807 ^ (k + 2147483646) * s : ℕ) : ZMod 2147483647) =
        ((t : ℕ) : ZMod 2147483647) := by
      push_cast
      simpa using hval
    exact (ZMod.natCast_eq_natCast_iff' _ _ _).mp hcast
  rw [seedIter_formula s (k + 2147483646) (by omega), hnat, Nat.mod_eq_of_lt htp]

/-- From any nonzero seed, some iterate of the recurrence lands in any
prescribed residue class mod 4 — the loop's direction draw eventually shows
any value. -/
theorem seedIter_hits_class (s : Nat) (hs : s % 2147483647 ≠ 0) (v : Nat)
    (hv : v < 4) : ∃ k, 1 ≤ k ∧ (seedIter k s) % 4 = v := by
  have hv4 : v = 0 ∨ v = 1 ∨ v = 2 ∨ v = 3 := by omega
  rcases hv4 with rfl | rfl | rfl | rfl
  · obtain ⟨k, h1, h2⟩ := seedIter_hits_target s 4 hs (by norm_num) (by norm_num)
    exact ⟨k, h1, by rw [h2]⟩
  · obtain ⟨k, h1, h2⟩ := seedIter_hits_target s 1 hs (by norm_num) (by norm_num)
    exact ⟨k, h1, by rw [h2]⟩
  · obtain ⟨k, h1, h2⟩ := seedIter_hits_target s 2 hs (by norm_num) (by norm_num)
    exact ⟨k, h1, by rw [h2]⟩
  · obtain ⟨k, h1, h2⟩ := seedIter_hits_target s 3 hs (by norm_num) (by norm_num)
    exact ⟨k, h1, by rw [h2]⟩

/-- The exit availability addressed by a draw `v ∈ {0,1,2,3}` in the order
north, east, west, south of the direction constants. -/
def exit4 (b0 b1 b2 b3 : Bool) (v : Nat) : Bool :=
  if v = 0 then b0 else if v = 1 then b1 else if v = 2 then b2
  else if v = 3 then b3 else false

/-- The loop-relevant exit availability of draw `v` for agent `a`. -/
def exitAt {n : Nat} (P : ExpParams n) (a : Fin n) (v : Nat) : Bool :=
  exit4 (P.hn a) (P.he a) (P.hw a) (P.hs a) v

/-- A draw `v` the validity test accepts for an agent whose stored direction
is `d0`: its exit is open, and it is not the forbidden reverse unless the
cell has exactly one exit. -/
def ValidDraw {n : Nat} (P : ExpParams n) (d0 : Int) (a : Fin n) (v : Nat) : Prop :=
  exitAt P a v = true ∧ ((v : Int) ≠ 3 - d0 ∨ P.nbx a = 1)

/-- With at least one exit open, some draw addresses an open exit. -/
theorem one_open (b0 b1 b2 b3 : Bool)
    (h : 1 ≤ (if b0 then 1 else 0) + (if b1 then 1 else 0) +
      (if b3 then 1 else 0) + (if b2 then 1 else 0)) :
    ∃ v : Fin 4, exit4 b0 b1 b2 b3 v.val = true := by
  revert h
  revert b0 b1 b2 b3
  decide

/-- With at least two exits open, two distinct draws address open exits. -/
theorem two_open (b0 b1 b2 b3 : Bool)
    (h : 2 ≤ (if b0 then 1 else 0) + (if b1 then 1 else 0) +
      (if b3 then 1 else 0) + (if b2 then 1 else 0)) :
    ∃ v1 v2 : Fin 4, v1 ≠ v2 ∧ exit4 b0 b1 b2 b3 v1.val = true ∧
      exit4 b0 b1 b2 b3 v2.val = true := by
  revert h
  revert b0 b1 b2 b3
  decide

/-- Every agent on a cell with at least one open exit has a draw the
validity test accepts, whatever its stored direction. -/
theorem validTarget {n : Nat} (P : ExpParams n) (a : Fin n) (d0 : Int)
    (hcount : P.nbx a = (if P.hn a then 1 else 0) + (if P.he a then 1 else 0) +
      (if P.hs a then 1 else 0) + (if P.hw a then 1 else 0))
    (hge : 1 ≤ P.nbx a) : ∃ v, v < 4 ∧ ValidDraw P d0 a v := by
  by_cases h1 : P.nbx a = 1
  · obtain ⟨v, hv⟩ := one_open (P.hn a) (P.he a) (P.hw a) (P.hs a)
      (by rw [hcount] at hge; exact hge)
    exact ⟨v.val, v.isLt, hv, Or.inr h1⟩
  · have h2 : 2 ≤ (if P.hn a then 1 else 0) + (if P.he a then 1 else 0) +
        (if P.hs a then 1 else 0) + (if P.hw a then 1 else 0) := by
      rw [hcount] at hge h1
      omega
    obtain ⟨v1, v2, hne, hx1, hx2⟩ := two_open (P.hn a) (P.he a) (P.hw a) (P.hs a) h2
    have hne' : (v1.val : Int) ≠ (v2.val : Int) := by
      intro hc
      exact hne (Fin.ext (by exact_mod_cast hc))
    by_cases hc : (v1.val : Int) = 3 - d0
    · refine ⟨v2.val, v2.isLt, hx2, Or.inl ?_⟩
      intro hcon
      exact hne' (by rw [hc, hcon])
    · exact ⟨v1.val, v1.isLt, hx1, Or.inl hc⟩

/-- An accepted draw's gated candidate position differs from the current
one: the draw addresses an open exit, so the gated delta fires. -/
theorem drawMoves {n : Nat} (P : ExpParams n) (a : Fin n) (v : Nat) (hv : v < 4)
    (hx : exitAt P a v = true) (q : Pos) :
    newPosOf (v : Int) q (P.hn a) (P.he a) (P.hw a) (P.hs a) ≠ q := by
  have hv4 : v = 0 ∨ v = 1 ∨ v = 2 ∨ v = 3 := by omega
  rcases hv4 with rfl | rfl | rfl | rfl
  · simp only [exitAt, exit4, if_pos] at hx
    intro hcon
    rw [Prod.ext_iff] at hcon
    have := hcon.1
    simp [newPosOf, DIR_NORTH, DIR_EAST, DIR_WEST, DIR_SOUTH, hx] at this
  · simp only [exitAt, exit4, if_neg (by norm_num : ¬(1:Nat) = 0), if_pos] at hx
    intro hcon
    rw [Prod.ext_iff] at hcon
    have := hcon.2
    simp [newPosOf, DIR_NORTH, DIR_EAST, DIR_WEST, DIR_SOUTH, hx] at this
  · simp only [exitAt, exit4, if_neg (by norm_num : ¬(2:Nat) = 0),
      if_neg (by norm_num : ¬(2:Nat) = 1), if_pos] at hx
    intro hcon
    rw [Prod.ext_iff] at hcon
    have := hcon.2
    simp [newPosOf, DIR_NORTH, DIR_EAST, DIR_WEST, DIR_SOUTH, hx] at this
  · simp only [exitAt, exit4, if_neg (by norm_num : ¬(3:Nat) = 0),
      if_neg (by norm_num : ¬(3:Nat) = 1), if_neg (by norm_num : ¬(3:Nat) = 2),
      if_pos] at hx
    intro hcon
    rw [Prod.ext_iff] at hcon
    have := hcon.1
    simp [newPosOf, DIR_NORTH, DIR_EAST, DIR_WEST, DIR_SOUTH, hx] at this

/-- Validity flags never go back from true. -/
theorem loopStep_valid_mono {n L : Nat} (P : ExpParams n) (st : LoopSt n L)
    (a : Fin n) (h : st.valid a = true) : (loopStep P st).valid a = true := by
  show (if stuckMask P st a then loopOk P st a else st.valid a) = true
  have hs : stuckMask P st a = false := by simp [stuckMask, h]
  rw [hs, if_neg Bool.false_ne_true]
  exact h

/-- Seeds along the pure iterates of the loop body. -/
theorem iterate_seeds {n L : Nat} (P : ExpParams n) :
    ∀ (j : Nat) (st : LoopSt n L) (a : Fin n),
      ((loopStep P)^[j] st).col.seeds a = seedIter j (st.col.seeds a) := by
  intro j
  induction j with
  | zero => intro st a; rfl
  | succ m ih =>
    intro st a
    rw [Function.iterate_succ_apply']
    show seedNext (((loopStep P)^[m] st).col.seeds a) = _
    rw [ih]
    rfl

/-- The loop invariant along the pure iterates. -/
theorem iterate_good {n L : Nat} (P : ExpParams n) (A D0 : Fin n → Int)
    (OP : Fin n → Pos) (hA : ∀ b, 0 ≤ A b) :
    ∀ (j : Nat) (st : LoopSt n L), LoopGood P A D0 OP st →
      LoopGood P A D0 OP ((loopStep P)^[j] st) := by
  intro j
  induction j with
  | zero => intro st hg; exact hg
  | succ m ih =>
    intro st hg
    rw [Function.iterate_succ_apply']
    exact loopStep_good P A D0 OP _ hA (ih st hg)

/-- If an exploring agent has a valid draw at some iteration `i ≤ j`, it is
validated after `j` pure iterations of the loop body. -/
theorem iterate_validates {n L : Nat} (P : ExpParams n) (A D0 : Fin n → Int)
    (OP : Fin n → Pos) (hA : ∀ b, 0 ≤ A b) (st0 : LoopSt n L)
    (hg : LoopGood P A D0 OP st0) :
    ∀ (j : Nat) (a : Fin n), P.E a = true →
      (∃ i, 1 ≤ i ∧ i ≤ j ∧ ValidDraw P (D0 a) a (seedIter i (st0.col.seeds a) % 4)) →
      ((loopStep P)^[j] st0).valid a = true := by
  intro j
  induction j with
  | zero =>
    rintro a hEa ⟨i, h1, h2, -⟩
    omega
  | succ m ih =>
    rintro a hEa ⟨i, h1, h2, hvd⟩
    rw [Function.iterate_succ_apply']
    by_cases hprev : ((loopStep P)^[m] st0).valid a = true
    · exact loopStep_valid_mono P _ a hprev
    · by_cases him : i ≤ m
      · exact absurd (ih a hEa ⟨i, h1, him, hvd⟩) hprev
      · have hi : i = m + 1 := by omega
        subst hi
        have hgm : LoopGood P A D0 OP ((loopStep P)^[m] st0) :=
          iterate_good P A D0 OP hA m st0 hg
        have hprevF : ((loopStep P)^[m] st0).valid a = false := by
          simpa using hprev
        have hstuck : stuckMask P ((loopStep P)^[m] st0) a = true := by
          simp [stuckMask, hEa, hprevF]
        show (if stuckMask P ((loopStep P)^[m] st0) a
          then loopOk P ((loopStep P)^[m] st0) a
          else ((loopStep P)^[m] st0).valid a) = true
        rw [hstuck, if_pos rfl]
        have hdir : loopDir ((loopStep P)^[m] st0) a =
            ((seedIter (m + 1) (st0.col.seeds a) % 4 : Nat) : Int) := by
          rw [loopDir, iterate_seeds P m st0 a]
          rfl
        obtain ⟨hexit, hturn⟩ := hvd
        have hdlt : seedIter (m + 1) (st0.col.seeds a) % 4 < 4 :=
          Nat.mod_lt _ (by norm_num)
        have hold : loopOld ((loopStep P)^[m] st0) a = OP a := by
          rw [loopOld, histAt]
          have hageeq : ((loopStep P)^[m] st0).col.age a = A a := congrFun hgm.1 a
          rw [hageeq]
          have hOPm := hgm.2.2.1 a
          rw [histAt] at hOPm
          exact hOPm
        have hmoved : loopNew P ((loopStep P)^[m] st0) a ≠
            loopOld ((loopStep P)^[m] st0) a := by
          rw [loopNew, hdir, hold]
          exact drawMoves P a _ hdlt hexit (OP a)
        have hD0 : ((loopStep P)^[m] st0).col.directions a = D0 a :=
          hgm.2.1 a hEa hprevF
        have hdirok : (loopDir ((loopStep P)^[m] st0) a ≠
            3 - ((loopStep P)^[m] st0).col.directions a) ∨ P.nbx a = 1 := by
          rcases hturn with h | h
          · exact Or.inl (by rw [hdir, hD0]; exact h)
          · exact Or.inr h
        rw [loopOk]
        simp only [Bool.and_eq_true, Bool.or_eq_true, decide_eq_true_eq]
        exact ⟨hmoved, hdirok⟩

/-- If the pure iterates are done at fuel `f`, so is the early-exiting
loop. -/
theorem exploreLoop_done_of_iterate {n L : Nat} (P : ExpParams n) :
    ∀ (f : Nat) (st : LoopSt n L), loopDone P ((loopStep P)^[f] st) →
      loopDone P (exploreLoop P f st) := by
  intro f
  induction f with
  | zero => intro st h; exact h
  | succ m ih =>
    intro st h
    by_cases hd : loopDone P st
    · rw [exploreLoop, if_pos hd]; exact hd
    · rw [exploreLoop, if_neg hd]
      apply ih
      rwa [Function.iterate_succ_apply] at h

/-- A loop already done is left untouched by any fuel. -/
theorem exploreLoop_of_done {n L : Nat} (P : ExpParams n) (f : Nat)
    (st : LoopSt n L) (hd : loopDone P st) : exploreLoop P f st = st := by
  cases f with
  | zero => rfl
  | succ m => rw [exploreLoop, if_pos hd]

/-- Once the loop finishes within some fuel, more fuel changes nothing. -/
theorem exploreLoop_stable {n L : Nat} (P : ExpParams n) :
    ∀ (f f' : Nat) (st : LoopSt n L), f ≤ f' →
      loopDone P (exploreLoop P f st) → exploreLoop P f' st = exploreLoop P f st := by
  intro f
  induction f with
  | zero =>
    intro f' st _ hdone
    exact exploreLoop_of_done P f' st hdone
  | succ m ih =>
    intro f' st hle hdone
    by_cases hd : loopDone P st
    · rw [exploreLoop_of_done P f' st hd, exploreLoop_of_done P (m + 1) st hd]
    · cases f' with
      | zero => omega
      | succ f'' =>
        rw [exploreLoop, if_neg hd] at hdone ⊢
        rw [show exploreLoop P (m + 1) st = exploreLoop P m (loopStep P st) from by
          rw [exploreLoop, if_neg hd]]
        exact ih f'' (loopStep P st) (by omega) hdone

/-- Method `explore` depends on its fuel only through the loop result. -/
theorem explore_loop_congr {n L : Nat} (U : Fin n → Bool) (mz : Maze)
    (pos_food pos_nest : Pos) (ph : Pheromon) (f f' : Nat) (c : Colony n L)
    (h : exploreLoop (exploreParams U mz ph (exploreSeeds U c)) f'
        ⟨exploreSeeds U c, fun _ => false⟩ =
      exploreLoop (exploreParams U mz ph (exploreSeeds U c)) f
        ⟨exploreSeeds U c, fun _ => false⟩) :
    explore U mz pos_food pos_nest ph f' c = explore U mz pos_food pos_nest ph f c := by
  simp only [explore]
  rw [h]

/-- C7: under the maze invariant that every exploring agent's cell has at
least one open exit, and with the (constructor-guaranteed) nonzero seeds,
the retry loop terminates: some fuel validates every exploring agent, and
any larger fuel gives the identical `explore` result, making `explore` a
total function of the batch, maze and seeds. -/
theorem explore_loop_terminates {n L : Nat} (U : Fin n → Bool) (mz : Maze)
    (ph : Pheromon) (c : Colony n L) (hage : ∀ b, 0 ≤ c.age b)
    (hseed : ∀ a, exploringMask U mz ph (exploreSeeds U c) a = true →
      (exploreSeeds U c).seeds a % 2147483647 ≠ 0)
    (hexit : ∀ a, exploringMask U mz ph (exploreSeeds U c) a = true →
      1 ≤ nbExits mz (oldPosOf (exploreSeeds U c) a)) :
    ∃ fuel, loopDone (exploreParams U mz ph (exploreSeeds U c))
      (exploreLoop (exploreParams U mz ph (exploreSeeds U c)) fuel
        ⟨exploreSeeds U c, fun _ => false⟩) ∧
      ∀ fuel', fuel ≤ fuel' → ∀ pos_food pos_nest,
        explore U mz pos_food pos_nest ph fuel' c =
          explore U mz pos_food pos_nest ph fuel c := by
  classical
  set cS : Colony n L := exploreSeeds U c with hcS
  set P : ExpParams n := exploreParams U mz ph cS with hP
  set st0 : LoopSt n L := ⟨cS, fun _ => false⟩ with hst0
  have hdraw : ∀ a, P.E a = true → ∃ k, 1 ≤ k ∧
      ValidDraw P (cS.directions a) a (seedIter k (st0.col.seeds a) % 4) := by
    intro a hEa
    obtain ⟨v, hv4, hvd⟩ := validTarget P a (cS.directions a) rfl (hexit a hEa)
    obtain ⟨k, hk1, hk2⟩ := seedIter_hits_class (cS.seeds a) (hseed a hEa) v hv4
    exact ⟨k, hk1, by rw [show st0.col.seeds a = cS.seeds a from rfl, hk2]; exact hvd⟩
  choose! k hk using hdraw
  set K : Nat := Finset.univ.sup k with hK
  have hdoneK : loopDone P ((loopStep P)^[K] st0) := by
    intro a hEa
    exact iterate_validates P cS.age cS.directions (oldPosOf cS) hage st0
      (loopGood_entry U mz ph cS) K a hEa
      ⟨k a, (hk a hEa).1, Finset.le_sup (Finset.mem_univ a), (hk a hEa).2⟩
  have hdone : loopDone P (exploreLoop P K st0) :=
    exploreLoop_done_of_iterate P K st0 hdoneK
  refine ⟨K, hdone, ?_⟩
  intro fuel' hle pos_food pos_nest
  exact explore_loop_congr U mz pos_food pos_nest ph K fuel' c
    (exploreLoop_stable P K fuel' st0 hle hdone)

/-- Witness for C7 at the concrete two-exit instance of claim C6. -/
theorem explore_loop_terminates_witness :
    ((∀ b : Fin 1, 0 ≤ colonyC6.age b) ∧
      (∀ a : Fin 1, exploringMask (fun b => !colonyC6.is_loaded b) mazeOpen2 pherZero
        (exploreSeeds (fun b => !colonyC6.is_loaded b) colonyC6) a = true →
        (exploreSeeds (fun b => !colonyC6.is_loaded b) colonyC6).seeds a % 2147483647 ≠ 0) ∧
      (∀ a : Fin 1, exploringMask (fun b => !colonyC6.is_loaded b) mazeOpen2 pherZero
        (exploreSeeds (fun b => !colonyC6.is_loaded b) colonyC6) a = true →
        1 ≤ nbExits mazeOpen2
          (oldPosOf (exploreSeeds (fun b => !colonyC6.is_loaded b) colonyC6) a))) ∧
    (∃ fuel, loopDone
      (exploreParams (fun b => !colonyC6.is_loaded b) mazeOpen2 pherZero
        (exploreSeeds (fun b => !colonyC6.is_loaded b) colonyC6))
      (exploreLoop
        (exploreParams (fun b => !colonyC6.is_loaded b) mazeOpen2 pherZero
          (exploreSeeds (fun b => !colonyC6.is_loaded b) colonyC6)) fuel
        ⟨exploreSeeds (fun b => !colonyC6.is_loaded b) colonyC6, fun _ => false⟩) ∧
      ∀ fuel', fuel ≤ fuel' → ∀ pos_food pos_nest,
        explore (fun b => !colonyC6.is_loaded b) mazeOpen2 pos_food pos_nest
            pherZero fuel' colonyC6 =
          explore (fun b => !colonyC6.is_loaded b) mazeOpen2 pos_food pos_nest
            pherZero fuel colonyC6) :=
  ⟨⟨by decide, by decide!, by decide!⟩,
    explore_loop_terminates (fun b => !colonyC6.is_loaded b) mazeOpen2 pherZero
      colonyC6 (by decide) (by decide!) (by decide!)⟩

end Ants
